import Mathlib

/-!
# Verification of tinybvh (tiny_bvh.h) against its specification

Shallow embedding of the scalar reference code of `tiny_bvh.h`.

Modelling conventions:
* IEEE `float` values are modelled as exact rationals (`ℚ`).  All float
  operations appearing in the modelled routines (`+`, `-`, `*`, `/`, `min`,
  `max`, comparisons) are modelled exactly; float literals such as `1e30f`
  are modelled by their decimal values.
* C arrays (node pools, index arrays, vertex arrays) are modelled as total
  stores `ℕ → α`; writes are `Function.update`.  Capacity/allocation is a
  C-side precondition and is outside the model.
* `while` loops with explicit stacks are modelled as fuel-indexed recursive
  functions returning `Option` (`none` = fuel exhausted).
* `sqrtf` (used only by `normalize`) has no exact rational counterpart; the
  routines that use it are parameterised by an arbitrary function
  `sq : ℚ → ℚ` standing for `sqrtf`.
* The fourth (`w`) lane of `bvhvec4` is ignored by every routine modelled
  here (it is only copied around), so vertices are modelled as 3-vectors.
-/

set_option maxHeartbeats 1000000
set_option maxRecDepth 100000

/- Core marks the `Rat` arithmetic primitives `@[irreducible]`, which stops
`decide` from evaluating concrete rational arithmetic; re-enable unfolding. -/
unseal Rat.add Rat.sub Rat.mul Rat.inv

/-- The `1e30` infinity sentinel used throughout tinybvh. -/
def q30 : ℚ := 10 ^ 30

/-- `bvhvec3`: three rational components. -/
structure Vec3 where
  x : ℚ
  y : ℚ
  z : ℚ
deriving DecidableEq, Repr

instance : Inhabited Vec3 := ⟨⟨0, 0, 0⟩⟩

/-- `tinybvh_min` on floats: `a < b ? a : b`. -/
def tinybvh_minq (a b : ℚ) : ℚ := if a < b then a else b

/-- `tinybvh_max` on floats: `a > b ? a : b`. -/
def tinybvh_maxq (a b : ℚ) : ℚ := if a > b then a else b

/-- `tinybvh_min` on `bvhvec3` (componentwise). -/
def tinybvh_min3 (a b : Vec3) : Vec3 :=
  ⟨tinybvh_minq a.x b.x, tinybvh_minq a.y b.y, tinybvh_minq a.z b.z⟩

/-- `tinybvh_max` on `bvhvec3` (componentwise). -/
def tinybvh_max3 (a b : Vec3) : Vec3 :=
  ⟨tinybvh_maxq a.x b.x, tinybvh_maxq a.y b.y, tinybvh_maxq a.z b.z⟩

/-- Componentwise subtraction `operator-` on `bvhvec3`. -/
instance : Sub Vec3 := ⟨fun a b => ⟨a.x - b.x, a.y - b.y, a.z - b.z⟩⟩

/-- Componentwise addition `operator+` on `bvhvec3`. -/
instance : Add Vec3 := ⟨fun a b => ⟨a.x + b.x, a.y + b.y, a.z + b.z⟩⟩

/-- Componentwise product `operator*` on `bvhvec3`. -/
instance : Mul Vec3 := ⟨fun a b => ⟨a.x * b.x, a.y * b.y, a.z * b.z⟩⟩

/-- Scalar product `operator*(bvhvec3, float)`. -/
def vscale (a : Vec3) (b : ℚ) : Vec3 := ⟨a.x * b, a.y * b, a.z * b⟩

theorem Vec3.sub_def (a b : Vec3) : a - b = ⟨a.x - b.x, a.y - b.y, a.z - b.z⟩ := rfl
theorem Vec3.add_def (a b : Vec3) : a + b = ⟨a.x + b.x, a.y + b.y, a.z + b.z⟩ := rfl
theorem Vec3.mul_def (a b : Vec3) : a * b = ⟨a.x * b.x, a.y * b.y, a.z * b.z⟩ := rfl

/-- `bvhvec3::halfArea`: `x < -1e30f ? 0 : (x*y + y*z + z*x)`. -/
def halfArea (v : Vec3) : ℚ := if v.x < -q30 then 0 else v.x * v.y + v.y * v.z + v.z * v.x

/-- `BVH::SA`: surface-area measure of an AABB. -/
def SA (aabbMin aabbMax : Vec3) : ℚ :=
  let e := aabbMax - aabbMin
  e.x * e.y + e.y * e.z + e.z * e.x

/-- `cross` on `bvhvec3`. -/
def cross (a b : Vec3) : Vec3 :=
  ⟨a.y * b.z - a.z * b.y, a.z * b.x - a.x * b.z, a.x * b.y - a.y * b.x⟩

/-- `dot` on `bvhvec3`. -/
def dot (a b : Vec3) : ℚ := a.x * b.x + a.y * b.y + a.z * b.z

/-- `fabs` on a float. -/
def fabsq (x : ℚ) : ℚ := if x < 0 then -x else x

/-- `tinybvh_safercp` on a float:
`x > 1e-12f ? (1.0f / x) : (x < -1e-12f ? (1.0f / x) : 1e30f)`. -/
def tinybvh_safercp (x : ℚ) : ℚ :=
  if x > 1 / 10 ^ 12 then 1 / x else if x < -(1 / 10 ^ 12) then 1 / x else q30

/-- `tinybvh_safercp` on a `bvhvec3` (componentwise). -/
def tinybvh_safercp3 (a : Vec3) : Vec3 :=
  ⟨tinybvh_safercp a.x, tinybvh_safercp a.y, tinybvh_safercp a.z⟩

/-- `length`: `sqrtf(x*x + y*y + z*z)`, with `sqrtf` modelled by the
parameter `sq`. -/
def vlength (sq : ℚ → ℚ) (a : Vec3) : ℚ := sq (a.x * a.x + a.y * a.y + a.z * a.z)

/-- `normalize` (source name; renamed to avoid a Mathlib clash):
`l = length(a); rl = l == 0 ? 0 : 1/l; return a * rl`. -/
def vnormalize (sq : ℚ → ℚ) (a : Vec3) : Vec3 :=
  let l := vlength sq a
  let rl := if l = 0 then 0 else 1 / l
  vscale a rl

/-- `Intersection`: hit record `{t, u, v: f32, prim: u32}`. -/
structure Intersection where
  t : ℚ
  u : ℚ
  v : ℚ
  prim : ℕ
deriving DecidableEq, Repr

/-- `Ray`: origin, direction, reciprocal direction, hit record.  The three
`dummy` padding fields are not modelled. -/
structure Ray where
  O : Vec3
  D : Vec3
  rD : Vec3
  hit : Intersection
deriving DecidableEq, Repr

/-- The `Ray(origin, direction, t = 1e30f)` constructor:
`memset(this, 0, sizeof(Ray))`, then `O = origin`, `D = normalize(direction)`,
`rD = tinybvh_safercp(D)`, `hit.t = t`. -/
def mkRay (sq : ℚ → ℚ) (origin direction : Vec3) (t : ℚ) : Ray :=
  let zeroed : Ray := ⟨⟨0, 0, 0⟩, ⟨0, 0, 0⟩, ⟨0, 0, 0⟩, ⟨0, 0, 0, 0⟩⟩
  let withO := { zeroed with O := origin }
  let withD := { withO with D := vnormalize sq direction }
  let withRD := { withD with rD := tinybvh_safercp3 withD.D }
  { withRD with hit := { withRD.hit with t := t } }

/-- `BVH::IntersectAABB`: slab ray/AABB test.  Returns the entry distance
`tmin` when the slab intervals overlap, the box is not beyond the current
best hit, and the box is not behind the ray; otherwise returns `1e30`. -/
def IntersectAABB (ray : Ray) (aabbMin aabbMax : Vec3) : ℚ :=
  let tx1 := (aabbMin.x - ray.O.x) * ray.rD.x
  let tx2 := (aabbMax.x - ray.O.x) * ray.rD.x
  let tmin := tinybvh_minq tx1 tx2
  let tmax := tinybvh_maxq tx1 tx2
  let ty1 := (aabbMin.y - ray.O.y) * ray.rD.y
  let ty2 := (aabbMax.y - ray.O.y) * ray.rD.y
  let tmin2 := tinybvh_maxq tmin (tinybvh_minq ty1 ty2)
  let tmax2 := tinybvh_minq tmax (tinybvh_maxq ty1 ty2)
  let tz1 := (aabbMin.z - ray.O.z) * ray.rD.z
  let tz2 := (aabbMax.z - ray.O.z) * ray.rD.z
  let tmin3 := tinybvh_maxq tmin2 (tinybvh_minq tz1 tz2)
  let tmax3 := tinybvh_minq tmax2 (tinybvh_maxq tz1 tz2)
  if tmax3 ≥ tmin3 ∧ tmin3 < ray.hit.t ∧ tmax3 ≥ 0 then tmin3 else q30

/-- `BVH::IntersectTri`: Moeller-Trumbore ray/triangle intersection.
`verts` is the borrowed vertex store (three vertices per triangle); `idx` is
the primitive index.  Returns the updated ray. -/
def IntersectTri (verts : ℕ → Vec3) (ray : Ray) (idx : ℕ) : Ray :=
  let vertIdx := idx * 3
  let edge1 := verts (vertIdx + 1) - verts vertIdx
  let edge2 := verts (vertIdx + 2) - verts vertIdx
  let h := cross ray.D edge2
  let a := dot edge1 h
  if fabsq a < 1 / 10 ^ 7 then ray
  else
    let f := 1 / a
    let s := ray.O - verts vertIdx
    let u := f * dot s h
    if u < 0 ∨ u > 1 then ray
    else
      let q := cross s edge1
      let v := f * dot ray.D q
      if v < 0 ∨ u + v > 1 then ray
      else
        let t := f * dot edge2 q
        if t > 0 ∧ t < ray.hit.t then
          { ray with hit := ⟨t, u, v, idx⟩ }
        else ray

/-- `BVH::BVHNode`: the 32-byte Wald node.
`triCount > 0` means leaf (`leftFirst` indexes the primitive-index array);
`triCount == 0` means interior (`leftFirst` is the left child, right child is
`leftFirst + 1`). -/
structure BVHNode where
  aabbMin : Vec3
  leftFirst : ℕ
  aabbMax : Vec3
  triCount : ℕ
deriving DecidableEq, Repr

instance : Inhabited BVHNode := ⟨⟨⟨0, 0, 0⟩, 0, ⟨0, 0, 0⟩, 0⟩⟩

/-- `BVHNode::isLeaf`: `triCount > 0`. -/
def BVHNode.isLeaf (n : BVHNode) : Bool := decide (0 < n.triCount)

/-- `BVH::BVHNodeAlt`: the 64-byte Aila-Laine node, storing the two child
AABBs rather than the node's own. -/
structure BVHNodeAlt where
  lmin : Vec3
  left : ℕ
  lmax : Vec3
  right : ℕ
  rmin : Vec3
  triCount : ℕ
  rmax : Vec3
  firstTri : ℕ
deriving DecidableEq, Repr

instance : Inhabited BVHNodeAlt := ⟨⟨⟨0, 0, 0⟩, 0, ⟨0, 0, 0⟩, 0, ⟨0, 0, 0⟩, 0, ⟨0, 0, 0⟩, 0⟩⟩

/-- `BVHNodeAlt::isLeaf`: `triCount > 0`. -/
def BVHNodeAlt.isLeaf (n : BVHNodeAlt) : Bool := decide (0 < n.triCount)

/-- `BVH::BVHNodeVerbose`: node with explicit left/right/parent/sibling. -/
structure BVHNodeVerbose where
  aabbMin : Vec3
  left : ℕ
  aabbMax : Vec3
  right : ℕ
  triCount : ℕ
  firstTri : ℕ
  parent : ℕ
  sibling : ℕ
deriving DecidableEq, Repr

instance : Inhabited BVHNodeVerbose := ⟨⟨⟨0, 0, 0⟩, 0, ⟨0, 0, 0⟩, 0, 0, 0, 0, 0⟩⟩

/-- `BVHNodeVerbose::isLeaf`: `triCount > 0`. -/
def BVHNodeVerbose.isLeaf (n : BVHNodeVerbose) : Bool := decide (0 < n.triCount)

/-- `BVH::Fragment`: bounds of an input primitive. -/
structure Fragment where
  bmin : Vec3
  primIdx : ℕ
  bmax : Vec3
  clipped : ℕ
deriving DecidableEq, Repr

instance : Inhabited Fragment := ⟨⟨⟨0, 0, 0⟩, 0, ⟨0, 0, 0⟩, 0⟩⟩

/-- The `BVH` object state: the fields read or written by the modelled
routines.  Node pools and index arrays are unbounded stores. -/
structure BVH where
  verts : ℕ → Vec3
  triCount : ℕ
  fragment : ℕ → Fragment
  triIdx : ℕ → ℕ
  idxCount : ℕ
  bvhNode : ℕ → BVHNode
  usedBVHNodes : ℕ
  altNode : ℕ → BVHNodeAlt
  usedAltNodes : ℕ
  verbose : ℕ → BVHNodeVerbose
  usedVerboseNodes : ℕ
  rebuildable : Bool
  refittable : Bool

/-- The leaf branch of the `Refit` loop body: recompute the AABB of a leaf
from the current vertex positions of its `triCount` primitives, starting from
`(+1e30, -1e30)`.  (The `w` lane of the `bvhvec4` accumulators is dropped
when the result is assigned to the node's `bvhvec3` bounds.) -/
def refitLeafBounds (verts : ℕ → Vec3) (triIdx : ℕ → ℕ) (first : ℕ) :
    ℕ → Vec3 × Vec3
  | 0 => (⟨q30, q30, q30⟩, ⟨-q30, -q30, -q30⟩)
  | j + 1 =>
    let acc := refitLeafBounds verts triIdx first j
    let vertIdx := triIdx (first + j) * 3
    let mn := tinybvh_min3 (tinybvh_min3 (tinybvh_min3 acc.1 (verts vertIdx))
      (verts (vertIdx + 1))) (verts (vertIdx + 2))
    let mx := tinybvh_max3 (tinybvh_max3 (tinybvh_max3 acc.2 (verts vertIdx))
      (verts (vertIdx + 1))) (verts (vertIdx + 2))
    (mn, mx)

/-- One iteration of the `Refit` loop, at node index `i`: a leaf is refitted
from the vertices, an interior node from its two children. -/
def RefitStep (verts : ℕ → Vec3) (triIdx : ℕ → ℕ) (ns : ℕ → BVHNode) (i : ℕ) :
    ℕ → BVHNode :=
  let node := ns i
  if node.isLeaf then
    let bounds := refitLeafBounds verts triIdx node.leftFirst node.triCount
    Function.update ns i { node with aabbMin := bounds.1, aabbMax := bounds.2 }
  else
    let l := ns node.leftFirst
    let r := ns (node.leftFirst + 1)
    Function.update ns i { node with
      aabbMin := tinybvh_min3 l.aabbMin r.aabbMin,
      aabbMax := tinybvh_max3 l.aabbMax r.aabbMax }

/-- The `Refit` loop: `for (int i = usedBVHNodes - 1; i >= 0; i--)`.
`RefitLoop … n ns` runs the body for `i = n-1` down to `i = 0`. -/
def RefitLoop (verts : ℕ → Vec3) (triIdx : ℕ → ℕ) :
    ℕ → (ℕ → BVHNode) → (ℕ → BVHNode)
  | 0, ns => ns
  | i + 1, ns => RefitLoop verts triIdx i (RefitStep verts triIdx ns i)

/-- `BVH::Refit`.  Note: the source contains no check of `refittable`
whatsoever; the loop runs unconditionally. -/
def Refit (b : BVH) : BVH :=
  { b with bvhNode := RefitLoop b.verts b.triIdx b.usedBVHNodes b.bvhNode }

/-- Concrete vertex store for the C1 counterexample: one triangle
`(0,0,0)-(1,0,0)-(0,1,0)`. -/
def c1verts : ℕ → Vec3 := fun i =>
  if i = 0 then ⟨0, 0, 0⟩ else if i = 1 then ⟨1, 0, 0⟩ else
  if i = 2 then ⟨0, 1, 0⟩ else ⟨0, 0, 0⟩

/-- Concrete BVH state for the C1 counterexample: a single-leaf BVH over
`c1verts` whose root AABB is stale (`[5,6]^3`) and whose `refittable` flag is
`false` (as `BuildHQ` leaves it). -/
def c1bvh : BVH :=
  { verts := c1verts
    triCount := 1
    fragment := fun _ => default
    triIdx := fun _ => 0
    idxCount := 1
    bvhNode := fun i => if i = 0 then ⟨⟨5, 5, 5⟩, 0, ⟨6, 6, 6⟩, 1⟩ else default
    usedBVHNodes := 2
    altNode := fun _ => default
    usedAltNodes := 0
    verbose := fun _ => default
    usedVerboseNodes := 0
    rebuildable := true
    refittable := false }

/-- One step of the xor32 PRNG used by `BVH::Optimize`:
`seed ^= seed << 13, seed ^= seed >> 17, seed ^= seed << 5` on a 32-bit
unsigned seed. -/
def xorshift32 (s : ℕ) : ℕ :=
  let s1 := Nat.xor (s % 2 ^ 32) ((s <<< 13) % 2 ^ 32)
  let s2 := Nat.xor s1 (s1 >>> 17)
  Nat.xor s2 ((s2 <<< 5) % 2 ^ 32)

/-- The initial value of the function-local `static unsigned int seed` in
`BVH::Optimize`: `0x12345678`.  Being `static`, this state is per process,
not per `BVH` object, and is shared by all instances. -/
def optimizeSeed0 : ℕ := 0x12345678

/-- The node-selection do-while loop at the top of `BVH::Optimize`:
draw `seed = xorshift(seed)`, let `Nid = 2 + seed % (usedVerboseNodes - 2)`,
and accept `Nid` when its parent is nonzero, it is not a leaf, and its
parent's parent is nonzero; otherwise redraw.  The shared seed is threaded
explicitly; the result is the chosen `Nid` and the seed state after the
call.  Fuel-indexed (`none` = fuel exhausted before a valid node came up). -/
def pickRandomNode (v : ℕ → BVHNodeVerbose) (used : ℕ) :
    ℕ → ℕ → Option (ℕ × ℕ)
  | 0, _ => none
  | fuel + 1, seed =>
    if (v (2 + xorshift32 seed % (used - 2))).parent ≠ 0 ∧
       (v (2 + xorshift32 seed % (used - 2))).isLeaf = false ∧
       (v ((v (2 + xorshift32 seed % (used - 2))).parent)).parent ≠ 0
    then some (2 + xorshift32 seed % (used - 2), xorshift32 seed)
    else pickRandomNode v used fuel (xorshift32 seed)

/-- Concrete verbose node pool for the C9 counterexample, a 12-node tree:
root `0` with children `2, 3`; `2` has children `4, 5`; `4` has children
`6, 7`; `6` has leaf children `8, 9` and `7` has leaf children `10, 11`;
node `1` is the customary unused slot.  The only nodes `pickRandomNode`
accepts are `6` and `7` (interior, parent nonzero, grandparent nonzero).
Only the `left/right/parent/triCount` fields matter to the selection loop;
boxes are omitted. -/
def c9verboseList : List BVHNodeVerbose :=
  [⟨⟨0, 0, 0⟩, 2, ⟨0, 0, 0⟩, 3, 0, 0, 4294967295, 0⟩,  -- 0: root
   default,                                             -- 1: unused
   ⟨⟨0, 0, 0⟩, 4, ⟨0, 0, 0⟩, 5, 0, 0, 0, 3⟩,            -- 2
   ⟨⟨0, 0, 0⟩, 0, ⟨0, 0, 0⟩, 0, 1, 0, 0, 2⟩,            -- 3: leaf
   ⟨⟨0, 0, 0⟩, 6, ⟨0, 0, 0⟩, 7, 0, 0, 2, 5⟩,            -- 4
   ⟨⟨0, 0, 0⟩, 0, ⟨0, 0, 0⟩, 0, 1, 1, 2, 4⟩,            -- 5: leaf
   ⟨⟨0, 0, 0⟩, 8, ⟨0, 0, 0⟩, 9, 0, 0, 4, 7⟩,            -- 6
   ⟨⟨0, 0, 0⟩, 10, ⟨0, 0, 0⟩, 11, 0, 0, 4, 6⟩,          -- 7
   ⟨⟨0, 0, 0⟩, 0, ⟨0, 0, 0⟩, 0, 1, 2, 6, 9⟩,            -- 8: leaf
   ⟨⟨0, 0, 0⟩, 0, ⟨0, 0, 0⟩, 0, 1, 3, 6, 8⟩,            -- 9: leaf
   ⟨⟨0, 0, 0⟩, 0, ⟨0, 0, 0⟩, 0, 1, 4, 7, 11⟩,           -- 10: leaf
   ⟨⟨0, 0, 0⟩, 0, ⟨0, 0, 0⟩, 0, 1, 5, 7, 10⟩]           -- 11: leaf

/-- The C9 counterexample pool as a store. -/
def c9verbose : ℕ → BVHNodeVerbose := fun i => c9verboseList.getD i default

/-- The leaf loop of the traversal routines:
`for (i = 0; i < triCount; i++) IntersectTri(ray, triIdx[leftFirst + i])`. -/
def IntersectTris (verts : ℕ → Vec3) (triIdx : ℕ → ℕ) :
    ℕ → ℕ → Ray → Ray
  | _, 0, ray => ray
  | first, c + 1, ray =>
    IntersectTris verts triIdx (first + 1) c (IntersectTri verts ray (triIdx first))

/-- `BVH::Intersect_Wald32Byte`: iterative stack traversal of the Wald
layout.  The source's current node pointer plus explicit stack are modelled
as a single list with the current node index at the head; the C code's
fixed-capacity `stack[64]` is modelled as unbounded.  Returns the final ray
and the step counter; fuel-indexed. -/
def IntersectW (verts : ℕ → Vec3) (triIdx : ℕ → ℕ) (ns : ℕ → BVHNode) :
    ℕ → List ℕ → Ray → ℕ → Option (Ray × ℕ)
  | 0, _, _, _ => none
  | _ + 1, [], ray, steps => some (ray, steps)
  | fuel + 1, i :: st, ray, steps =>
    if (ns i).isLeaf then
      IntersectW verts triIdx ns fuel st
        (IntersectTris verts triIdx (ns i).leftFirst (ns i).triCount ray) (steps + 1)
    else
      if IntersectAABB ray (ns (ns i).leftFirst).aabbMin (ns (ns i).leftFirst).aabbMax >
         IntersectAABB ray (ns ((ns i).leftFirst + 1)).aabbMin (ns ((ns i).leftFirst + 1)).aabbMax then
        if IntersectAABB ray (ns ((ns i).leftFirst + 1)).aabbMin (ns ((ns i).leftFirst + 1)).aabbMax = q30 then
          IntersectW verts triIdx ns fuel st ray (steps + 1)
        else if IntersectAABB ray (ns (ns i).leftFirst).aabbMin (ns (ns i).leftFirst).aabbMax ≠ q30 then
          IntersectW verts triIdx ns fuel (((ns i).leftFirst + 1) :: (ns i).leftFirst :: st) ray (steps + 1)
        else IntersectW verts triIdx ns fuel (((ns i).leftFirst + 1) :: st) ray (steps + 1)
      else
        if IntersectAABB ray (ns (ns i).leftFirst).aabbMin (ns (ns i).leftFirst).aabbMax = q30 then
          IntersectW verts triIdx ns fuel st ray (steps + 1)
        else if IntersectAABB ray (ns ((ns i).leftFirst + 1)).aabbMin (ns ((ns i).leftFirst + 1)).aabbMax ≠ q30 then
          IntersectW verts triIdx ns fuel ((ns i).leftFirst :: ((ns i).leftFirst + 1) :: st) ray (steps + 1)
        else IntersectW verts triIdx ns fuel ((ns i).leftFirst :: st) ray (steps + 1)

/-- Concrete single-leaf Wald node pool over `c1verts`, for witnesses. -/
def c6nodes : ℕ → BVHNode := fun i =>
  if i = 0 then ⟨⟨0, 0, 0⟩, 0, ⟨1, 1, 0⟩, 1⟩ else default

/-- Concrete ray `O=(1/4,1/4,-1)`, `D=(0,0,1)`, `rD = safercp(D)`,
`hit.t = 1e30`, aimed at the triangle of `c1verts`. -/
def c6ray : Ray := ⟨⟨1/4, 1/4, -1⟩, ⟨0, 0, 1⟩, ⟨q30, q30, 1⟩, ⟨q30, 0, 0, 0⟩⟩

/-- Edge-boxed binary tree abstraction of a BVH: an interior node carries
its two children's AABBs (stored in the children's own records in the Wald
layout, and in the parent record in the Aila-Laine layout), a leaf carries
its first-primitive slot and primitive count. -/
inductive BTree where
  | leaf (first count : ℕ)
  | node (lmin lmax rmin rmax : Vec3) (l r : BTree)
deriving DecidableEq, Repr

/-- Number of nodes of a `BTree`. -/
def btCount : BTree → ℕ
  | .leaf _ _ => 1
  | .node _ _ _ _ l r => 1 + btCount l + btCount r

/-- Every leaf carries a positive primitive count (as all leaves produced by
the builders do). -/
def BTree.leavesPos : BTree → Bool
  | .leaf _ count => decide (0 < count)
  | .node _ _ _ _ l r => l.leavesPos && r.leavesPos

/-- Extract the tree encoded in a Wald node pool at root index `i`
(fuel-indexed; the child boxes of an interior node are read from the
children's own records). -/
def extractW (ns : ℕ → BVHNode) : ℕ → ℕ → Option BTree
  | 0, _ => none
  | fuel + 1, i =>
    if (ns i).isLeaf then some (.leaf (ns i).leftFirst (ns i).triCount)
    else
      match extractW ns fuel (ns i).leftFirst,
            extractW ns fuel ((ns i).leftFirst + 1) with
      | some l, some r =>
        some (.node (ns (ns i).leftFirst).aabbMin (ns (ns i).leftFirst).aabbMax
          (ns ((ns i).leftFirst + 1)).aabbMin (ns ((ns i).leftFirst + 1)).aabbMax l r)
      | _, _ => none

/-- Extract the tree encoded in an Aila-Laine node pool at root index `i`
(the child boxes of an interior node are stored in the node itself). -/
def extractA (alt : ℕ → BVHNodeAlt) : ℕ → ℕ → Option BTree
  | 0, _ => none
  | fuel + 1, i =>
    if (alt i).isLeaf then some (.leaf (alt i).firstTri (alt i).triCount)
    else
      match extractA alt fuel (alt i).left, extractA alt fuel (alt i).right with
      | some l, some r =>
        some (.node (alt i).lmin (alt i).lmax (alt i).rmin (alt i).rmax l r)
      | _, _ => none

/-- Reference traversal of a `BTree`: the ordered near-child-first descent
shared by the traversal loops, together with the number of nodes visited. -/
def travB (verts : ℕ → Vec3) (triIdx : ℕ → ℕ) : BTree → Ray → Ray × ℕ
  | .leaf first count, ray => (IntersectTris verts triIdx first count ray, 1)
  | .node lmin lmax rmin rmax l r, ray =>
    if IntersectAABB ray lmin lmax > IntersectAABB ray rmin rmax then
      if IntersectAABB ray rmin rmax = q30 then (ray, 1)
      else if IntersectAABB ray lmin lmax ≠ q30 then
        ((travB verts triIdx l (travB verts triIdx r ray).1).1,
         1 + (travB verts triIdx r ray).2 +
           (travB verts triIdx l (travB verts triIdx r ray).1).2)
      else ((travB verts triIdx r ray).1, 1 + (travB verts triIdx r ray).2)
    else
      if IntersectAABB ray lmin lmax = q30 then (ray, 1)
      else if IntersectAABB ray rmin rmax ≠ q30 then
        ((travB verts triIdx r (travB verts triIdx l ray).1).1,
         1 + (travB verts triIdx l ray).2 +
           (travB verts triIdx r (travB verts triIdx l ray).1).2)
      else ((travB verts triIdx l ray).1, 1 + (travB verts triIdx l ray).2)

/-- The inline child slab test of `Intersect_AilaLaine`:
`lmin - O`, `* rD`, fold `tmin`/`tmax`, and accept under the same condition
as `IntersectAABB`. -/
def altChildDist (ray : Ray) (cmin cmax : Vec3) : ℚ :=
  let v1 := (cmin - ray.O) * ray.rD
  let v2 := (cmax - ray.O) * ray.rD
  let tmin := tinybvh_maxq (tinybvh_maxq (tinybvh_minq v1.x v2.x)
    (tinybvh_minq v1.y v2.y)) (tinybvh_minq v1.z v2.z)
  let tmax := tinybvh_minq (tinybvh_minq (tinybvh_maxq v1.x v2.x)
    (tinybvh_maxq v1.y v2.y)) (tinybvh_maxq v1.z v2.z)
  if tmax ≥ tmin ∧ tmin < ray.hit.t ∧ tmax ≥ 0 then tmin else q30

/-- `BVH::Intersect_AilaLaine`: iterative stack traversal of the Aila-Laine
layout, modelled like `IntersectW` (current node at the head of the list). -/
def IntersectA (verts : ℕ → Vec3) (triIdx : ℕ → ℕ) (alt : ℕ → BVHNodeAlt) :
    ℕ → List ℕ → Ray → ℕ → Option (Ray × ℕ)
  | 0, _, _, _ => none
  | _ + 1, [], ray, steps => some (ray, steps)
  | fuel + 1, i :: st, ray, steps =>
    if (alt i).isLeaf then
      IntersectA verts triIdx alt fuel st
        (IntersectTris verts triIdx (alt i).firstTri (alt i).triCount ray) (steps + 1)
    else
      if altChildDist ray (alt i).lmin (alt i).lmax >
         altChildDist ray (alt i).rmin (alt i).rmax then
        if altChildDist ray (alt i).rmin (alt i).rmax = q30 then
          IntersectA verts triIdx alt fuel st ray (steps + 1)
        else if altChildDist ray (alt i).lmin (alt i).lmax ≠ q30 then
          IntersectA verts triIdx alt fuel ((alt i).right :: (alt i).left :: st) ray (steps + 1)
        else IntersectA verts triIdx alt fuel ((alt i).right :: st) ray (steps + 1)
      else
        if altChildDist ray (alt i).lmin (alt i).lmax = q30 then
          IntersectA verts triIdx alt fuel st ray (steps + 1)
        else if altChildDist ray (alt i).rmin (alt i).rmax ≠ q30 then
          IntersectA verts triIdx alt fuel ((alt i).left :: (alt i).right :: st) ray (steps + 1)
        else IntersectA verts triIdx alt fuel ((alt i).left :: st) ray (steps + 1)

/-- The writes performed by the `WALD_32BYTE → AILA_LAINE` conversion for
the subtree `t`, laid out contiguously from slot `p` in depth-first
pre-order (left child at `p + 1`, right child after the whole left
subtree).  Only the fields the conversion assigns are written; the rest of
each slot keeps its previous contents (the source `memset`s the pool). -/
def serWriteA (alt : ℕ → BVHNodeAlt) (p : ℕ) : BTree → (ℕ → BVHNodeAlt)
  | .leaf first count =>
    Function.update alt p { alt p with triCount := count, firstTri := first }
  | .node lmin lmax rmin rmax l r =>
    serWriteA (serWriteA (Function.update alt p
      { alt p with
        lmin := lmin, left := p + 1, lmax := lmax,
        right := p + 1 + btCount l, rmin := rmin, rmax := rmax })
      (p + 1) l) (p + 1 + btCount l) r

/-- The patch a stacked `(some ps, _)` work item performs when popped:
`altNode[ps].right = newAltNode` with the current counter `p`. -/
def applyPatch (alt : ℕ → BVHNodeAlt) : Option ℕ → ℕ → (ℕ → BVHNodeAlt)
  | none, _ => alt
  | some ps, p => Function.update alt ps { alt ps with right := p }

/-- The `WALD_32BYTE → AILA_LAINE` conversion loop of `BVH::Convert`.
A work item `(none, i)` stands for the source's current `nodeIdx = i`; an
item `(some ps, i)` stands for a stacked pair (parent slot `ps` whose
`right` field is patched with the current allocation counter when the item
is popped, then `nodeIdx = i`).  State: work list, pool, counter
`newAltNode`. -/
def ConvertWA (ns : ℕ → BVHNode) :
    ℕ → List (Option ℕ × ℕ) → (ℕ → BVHNodeAlt) → ℕ →
    Option ((ℕ → BVHNodeAlt) × ℕ)
  | 0, _, _, _ => none
  | _ + 1, [], alt, p => some (alt, p)
  | fuel + 1, (patch, i) :: st, alt0, p =>
    if (ns i).isLeaf then
      ConvertWA ns fuel st
        (Function.update (applyPatch alt0 patch p) p { applyPatch alt0 patch p p with
          triCount := (ns i).triCount,
          firstTri := (ns i).leftFirst }) (p + 1)
    else
      ConvertWA ns fuel ((none, (ns i).leftFirst) ::
          (some p, (ns i).leftFirst + 1) :: st)
        (Function.update (applyPatch alt0 patch p) p { applyPatch alt0 patch p p with
          lmin := (ns (ns i).leftFirst).aabbMin,
          left := p + 1, lmax := (ns (ns i).leftFirst).aabbMax,
          rmin := (ns ((ns i).leftFirst + 1)).aabbMin,
          rmax := (ns ((ns i).leftFirst + 1)).aabbMax }) (p + 1)

/-- `BVH::Convert(WALD_32BYTE, AILA_LAINE)`: fresh zeroed pool, run the
conversion loop from the root, record `usedAltNodes`, clear
`rebuildable`. -/
def Convert_WaldToAilaLaine (b : BVH) (fuel : ℕ) : Option BVH :=
  match ConvertWA b.bvhNode fuel [(none, 0)] (fun _ => default) 0 with
  | none => none
  | some (alt, used) =>
    some { b with altNode := alt, usedAltNodes := used, rebuildable := false }

/-- Concrete single-leaf BVH over `c1verts`, for witnesses. -/
def c2bvh : BVH :=
  { verts := c1verts
    triCount := 1
    fragment := fun _ => default
    triIdx := fun _ => 0
    idxCount := 1
    bvhNode := c6nodes
    usedBVHNodes := 2
    altNode := fun _ => default
    usedAltNodes := 0
    verbose := fun _ => default
    usedVerboseNodes := 0
    rebuildable := true
    refittable := true }

/-- The result of converting `c2bvh` to the Aila-Laine layout. -/
def c2bvhAlt : BVH :=
  { c2bvh with
    altNode := Function.update (fun _ => default) 0
      { (default : BVHNodeAlt) with triCount := 1, firstTri := 0 }
    usedAltNodes := 1
    rebuildable := false }

/-- Own-box binary tree abstraction of a BVH: every node carries its own
AABB (as stored in the Wald and verbose layouts). -/
inductive NTree where
  | leaf (bmin bmax : Vec3) (first count : ℕ)
  | node (bmin bmax : Vec3) (l r : NTree)
deriving DecidableEq, Repr

/-- Number of nodes of an `NTree`. -/
def ntCount : NTree → ℕ
  | .leaf _ _ _ _ => 1
  | .node _ _ l r => 1 + ntCount l + ntCount r

/-- Number of node slots the `VERBOSE → WALD_32BYTE` conversion allocates
below a subtree's root (children pairs only; the root slot is separate). -/
def ntAlloc : NTree → ℕ
  | .leaf _ _ _ _ => 0
  | .node _ _ l r => 2 + ntAlloc l + ntAlloc r

/-- Every leaf carries a positive primitive count. -/
def NTree.leavesPos : NTree → Bool
  | .leaf _ _ _ count => decide (0 < count)
  | .node _ _ l r => l.leavesPos && r.leavesPos

/-- Own-box extraction from a Wald node pool. -/
def extractWN (ns : ℕ → BVHNode) : ℕ → ℕ → Option NTree
  | 0, _ => none
  | fuel + 1, i =>
    if (ns i).isLeaf then
      some (.leaf (ns i).aabbMin (ns i).aabbMax (ns i).leftFirst (ns i).triCount)
    else
      match extractWN ns fuel (ns i).leftFirst,
            extractWN ns fuel ((ns i).leftFirst + 1) with
      | some l, some r => some (.node (ns i).aabbMin (ns i).aabbMax l r)
      | _, _ => none

/-- Own-box extraction from a verbose node pool (children via the explicit
`left`/`right` fields). -/
def extractV (V : ℕ → BVHNodeVerbose) : ℕ → ℕ → Option NTree
  | 0, _ => none
  | fuel + 1, i =>
    if (V i).isLeaf then
      some (.leaf (V i).aabbMin (V i).aabbMax (V i).firstTri (V i).triCount)
    else
      match extractV V fuel (V i).left, extractV V fuel (V i).right with
      | some l, some r => some (.node (V i).aabbMin (V i).aabbMax l r)
      | _, _ => none

/-- The `WALD_32BYTE → VERBOSE` conversion loop of `BVH::Convert`: an
in-place copy along a DFS; each work item is `(parent, wald index)`.  Every
visited node gets its bounds, `triCount` and `parent`; a leaf additionally
its `firstTri`, an interior node its `left`/`right` child indices (which
equal the Wald child indices). -/
def ConvertWV (ns : ℕ → BVHNode) :
    ℕ → List (ℕ × ℕ) → (ℕ → BVHNodeVerbose) → Option (ℕ → BVHNodeVerbose)
  | 0, _, _ => none
  | _ + 1, [], V => some V
  | fuel + 1, (par, i) :: st, V =>
    if (ns i).isLeaf then
      ConvertWV ns fuel st (Function.update V i { V i with
        aabbMin := (ns i).aabbMin
        aabbMax := (ns i).aabbMax
        triCount := (ns i).triCount
        parent := par
        firstTri := (ns i).leftFirst })
    else
      ConvertWV ns fuel ((i, (ns i).leftFirst) :: (i, (ns i).leftFirst + 1) :: st)
        (Function.update V i { V i with
          aabbMin := (ns i).aabbMin
          aabbMax := (ns i).aabbMax
          triCount := (ns i).triCount
          parent := par
          left := (ns i).leftFirst
          right := (ns i).leftFirst + 1 })

/-- `BVH::Convert(WALD_32BYTE, VERBOSE)`: zeroed pool, root-parent sentinel
`0xffffffff`, run the copy loop, set `usedVerboseNodes`, clear
`rebuildable`. -/
def Convert_WaldToVerbose (b : BVH) (fuel : ℕ) : Option BVH :=
  match ConvertWV b.bvhNode fuel [(4294967295, 0)]
      (Function.update (fun _ => default) 0
        { (default : BVHNodeVerbose) with parent := 4294967295 }) with
  | none => none
  | some V =>
    some { b with
      verbose := V
      usedVerboseNodes := b.usedBVHNodes
      rebuildable := false }

/-- The `VERBOSE → WALD_32BYTE` conversion loop of `BVH::Convert`: DFS copy
with fresh slot allocation (`newNodePtr` starts at 2; each interior node
allocates its two children contiguously).  Work items are
`(source index, destination slot)`. -/
def ConvertVW (V : ℕ → BVHNodeVerbose) :
    ℕ → List (ℕ × ℕ) → (ℕ → BVHNode) → ℕ → Option ((ℕ → BVHNode) × ℕ)
  | 0, _, _, _ => none
  | _ + 1, [], ns, np => some (ns, np)
  | fuel + 1, (src, dst) :: st, ns, np =>
    if (V src).isLeaf then
      ConvertVW V fuel st (Function.update ns dst { ns dst with
        aabbMin := (V src).aabbMin
        aabbMax := (V src).aabbMax
        triCount := (V src).triCount
        leftFirst := (V src).firstTri }) np
    else
      ConvertVW V fuel (((V src).left, np) :: ((V src).right, np + 1) :: st)
        (Function.update ns dst { ns dst with
          aabbMin := (V src).aabbMin
          aabbMax := (V src).aabbMax
          leftFirst := np }) (np + 2)

/-- `BVH::Convert(VERBOSE, WALD_32BYTE)`: zeroed pool, run the conversion
loop from the root into slot 0 with `newNodePtr = 2`, set `usedBVHNodes`,
clear `rebuildable`. -/
def Convert_VerboseToWald (b : BVH) (fuel : ℕ) : Option BVH :=
  match ConvertVW b.verbose fuel [(0, 0)] (fun _ => default) 2 with
  | none => none
  | some nsp =>
    some { b with
      bvhNode := nsp.1
      usedBVHNodes := b.usedVerboseNodes
      rebuildable := false }

/-- The writes of the `VERBOSE → WALD_32BYTE` conversion for a subtree `t`:
the root record at slot `dst`, descendants allocated contiguously from `c`
(children of the root at `c`, `c+1`; the left subtree's descendants from
`c+2`).  Returns the store and the final allocation counter. -/
def serWriteW (ns : ℕ → BVHNode) (dst c : ℕ) : NTree → (ℕ → BVHNode) × ℕ
  | .leaf bmin bmax first count =>
    (Function.update ns dst { ns dst with
      aabbMin := bmin
      aabbMax := bmax
      triCount := count
      leftFirst := first }, c)
  | .node bmin bmax l r =>
    serWriteW (serWriteW (Function.update ns dst { ns dst with
        aabbMin := bmin
        aabbMax := bmax
        leftFirst := c }) c (c + 2) l).1 (c + 1)
      (serWriteW (Function.update ns dst { ns dst with
        aabbMin := bmin
        aabbMax := bmax
        leftFirst := c }) c (c + 2) l).2 r

/-- A verbose slot `j` is a faithful copy of Wald slot `j`: same bounds and
`triCount`; a leaf's `firstTri` copies `leftFirst`, an interior node's
`left`/`right` point at `leftFirst`, `leftFirst + 1`.  (The `parent` field
is irrelevant to extraction.) -/
def wvMatch (ns : ℕ → BVHNode) (V : ℕ → BVHNodeVerbose) (j : ℕ) : Prop :=
  (V j).aabbMin = (ns j).aabbMin ∧ (V j).aabbMax = (ns j).aabbMax ∧
  (V j).triCount = (ns j).triCount ∧
  (if (ns j).isLeaf then (V j).firstTri = (ns j).leftFirst
   else (V j).left = (ns j).leftFirst ∧ (V j).right = (ns j).leftFirst + 1)

/-- The whole subtree of Wald index `i` (to depth `fuel`) is faithfully
copied into the verbose pool. -/
def SubMatch (ns : ℕ → BVHNode) (V : ℕ → BVHNodeVerbose) : ℕ → ℕ → Prop
  | 0, _ => True
  | fuel + 1, i =>
    wvMatch ns V i ∧
    (¬ (ns i).isLeaf = true →
      SubMatch ns V fuel (ns i).leftFirst ∧ SubMatch ns V fuel ((ns i).leftFirst + 1))

/-- The verbose layout of `c2bvh` as computed by the conversion. -/
def c8bvhV : BVH := (Convert_WaldToVerbose c2bvh 2).getD c2bvh

/-- The Wald layout recovered from `c8bvhV` by the reverse conversion. -/
def c8bvhW : BVH := (Convert_VerboseToWald c8bvhV 2).getD c2bvh

/-! ## The binned-SAH builder `BVH::Build`

The builder is modelled on the (re)allocating path: fresh `triIdx` /
`fragment` / node stores are written over the given base stores.  Work-list
indices always lie below the allocation counter in every reachable state,
so the current node's fields are read before its children's slots are
written, exactly as in the source. -/

/-- Component access `v.cell[a]` on `bvhvec3`. -/
def vcell (v : Vec3) (a : ℕ) : ℚ := if a = 0 then v.x else if a = 1 then v.y else v.z

/-- The C cast `(int)f` of a float value: truncation toward zero. -/
def cInt (q : ℚ) : ℤ := if 0 ≤ q then ⌊q⌋ else -⌊-q⌋

/-- `tinybvh_clamp` on ints: `x < a ? a : (x > b ? b : x)`. -/
def tinybvh_clampi (x a b : ℤ) : ℤ := if x < a then a else if x > b then b else x

/-- The bin slot of a scaled, node-relative centroid coordinate: cast to
int and clamped to `[0, BVHBINS - 1]` (`BVHBINS = 8`). -/
def binIdx (q : ℚ) : ℕ := (tinybvh_clampi (cInt q) 0 7).toNat

/-- Point update of a two-index store (the `binMin[3][BVHBINS]` arrays). -/
def upd2 {α : Type} (g : ℕ → ℕ → α) (a b : ℕ) (v : α) : ℕ → ℕ → α :=
  fun x y => if x = a ∧ y = b then v else g x y

/-- The per-axis bin accumulators of `BVH::Build`: bounds and population of
each of the `3 × BVHBINS` bins. -/
structure Bins where
  bmin : ℕ → ℕ → Vec3
  bmax : ℕ → ℕ → Vec3
  cnt : ℕ → ℕ → ℕ

/-- Initial bins: `binMin = 1e30`, `binMax = -1e30`, `count = 0`. -/
def bins0 : Bins :=
  ⟨fun _ _ => ⟨q30, q30, q30⟩, fun _ _ => ⟨-q30, -q30, -q30⟩, fun _ _ => 0⟩

/-- One bin update on axis `a`, slot `b`: grow the bin's bounds by the
fragment's bounds and bump its count. -/
def binAdd (bs : Bins) (a b : ℕ) (fb fB : Vec3) : Bins :=
  { bmin := upd2 bs.bmin a b (tinybvh_min3 (bs.bmin a b) fb)
    bmax := upd2 bs.bmax a b (tinybvh_max3 (bs.bmax a b) fB)
    cnt := upd2 bs.cnt a b (bs.cnt a b + 1) }

/-- Binning of one fragment: the centroid is scaled into bin coordinates
(`((bmin + bmax) * 0.5f - nmin3) * rpd3`), cast and clamped per axis, and
the fragment is added to the bin it lands in on each of the three axes. -/
def binFrag (nmin rpd : Vec3) (fg : Fragment) (bs : Bins) : Bins :=
  binAdd (binAdd (binAdd bs
    0 (binIdx (vcell ((vscale (fg.bmin + fg.bmax) (1/2) - nmin) * rpd) 0)) fg.bmin fg.bmax)
    1 (binIdx (vcell ((vscale (fg.bmin + fg.bmax) (1/2) - nmin) * rpd) 1)) fg.bmin fg.bmax)
    2 (binIdx (vcell ((vscale (fg.bmin + fg.bmax) (1/2) - nmin) * rpd) 2)) fg.bmin fg.bmax

/-- The binning loop over the node's fragments (`triIdx[leftFirst + i]`,
`i = 0 .. triCount - 1`). -/
def binAll (fr : ℕ → Fragment) (ti : ℕ → ℕ) (nmin rpd : Vec3) (f : ℕ) : ℕ → Bins
  | 0 => bins0
  | n + 1 => binFrag nmin rpd (fr (ti (f + n))) (binAll fr ti nmin rpd f n)

/-- `rpd3 = BVHBINS / (node.aabbMax - node.aabbMin)` (componentwise). -/
def nodeRpd (node : BVHNode) : Vec3 :=
  ⟨8 / (node.aabbMax.x - node.aabbMin.x),
   8 / (node.aabbMax.y - node.aabbMin.y),
   8 / (node.aabbMax.z - node.aabbMin.z)⟩

/-- Prefix count `lN` after the sweep has consumed bins `0 .. i` of axis
`a`. -/
def lCnt (bs : Bins) (a : ℕ) : ℕ → ℕ
  | 0 => bs.cnt a 0
  | i + 1 => lCnt bs a i + bs.cnt a (i + 1)

/-- Prefix bound `l1` (seeded with `1e30`) after bins `0 .. i`. -/
def lMin (bs : Bins) (a : ℕ) : ℕ → Vec3
  | 0 => tinybvh_min3 ⟨q30, q30, q30⟩ (bs.bmin a 0)
  | i + 1 => tinybvh_min3 (lMin bs a i) (bs.bmin a (i + 1))

/-- Prefix bound `l2` (seeded with `-1e30`) after bins `0 .. i`. -/
def lMax (bs : Bins) (a : ℕ) : ℕ → Vec3
  | 0 => tinybvh_max3 ⟨-q30, -q30, -q30⟩ (bs.bmax a 0)
  | i + 1 => tinybvh_max3 (lMax bs a i) (bs.bmax a (i + 1))

/-- Suffix count after the reverse sweep has consumed the `k` highest bins:
`rCnt k = count[a][8-k] + … + count[a][7]`. -/
def rCnt (bs : Bins) (a : ℕ) : ℕ → ℕ
  | 0 => 0
  | k + 1 => rCnt bs a k + bs.cnt a (7 - k)

/-- Suffix bound `r1` over the `k` highest bins. -/
def rMin (bs : Bins) (a : ℕ) : ℕ → Vec3
  | 0 => ⟨q30, q30, q30⟩
  | k + 1 => tinybvh_min3 (rMin bs a k) (bs.bmin a (7 - k))

/-- Suffix bound `r2` over the `k` highest bins. -/
def rMax (bs : Bins) (a : ℕ) : ℕ → Vec3
  | 0 => ⟨-q30, -q30, -q30⟩
  | k + 1 => tinybvh_max3 (rMax bs a k) (bs.bmax a (7 - k))

/-- `ANL[i]`: SAH left cost at split position `i` of axis `a` (`1e30` for
an empty left side). -/
def ANL (bs : Bins) (a i : ℕ) : ℚ :=
  if lCnt bs a i = 0 then q30
  else halfArea (lMax bs a i - lMin bs a i) * (lCnt bs a i : ℚ)

/-- `ANR[m]`: SAH right cost at split position `m` of axis `a` (the right
side holds bins `m+1 .. 7`). -/
def ANR (bs : Bins) (a m : ℕ) : ℚ :=
  if rCnt bs a (7 - m) = 0 then q30
  else halfArea (rMax bs a (7 - m) - rMin bs a (7 - m)) * (rCnt bs a (7 - m) : ℚ)

/-- The running best split of `BVH::Build`: `splitCost`, `bestAxis`,
`bestPos` and the candidate child bounds.  The four bound vectors are
declared outside the node loop in the source and persist across nodes. -/
structure Best where
  cost : ℚ
  axis : ℕ
  pos : ℕ
  lMin : Vec3
  lMax : Vec3
  rMin : Vec3
  rMax : Vec3

/-- One candidate inspection (`if (C < splitCost) …`) at position `i` of
axis `a`. -/
def selStep (bs : Bins) (a i : ℕ) (b : Best) : Best :=
  if ANL bs a i + ANR bs a i < b.cost then
    { cost := ANL bs a i + ANR bs a i
      axis := a
      pos := i
      lMin := lMin bs a i
      lMax := lMax bs a i
      rMin := rMin bs a (7 - i)
      rMax := rMax bs a (7 - i) }
  else b

/-- The candidate sweep over split positions `0 .. i` of one axis. -/
def selSweep (bs : Bins) (a : ℕ) : ℕ → Best → Best
  | 0, b => selStep bs a 0 b
  | i + 1, b => selStep bs a (i + 1) (selSweep bs a i b)

/-- The axis loop of the split search: an axis takes part only if the node
extent along it exceeds `minDim`. -/
def selAxis (bs : Bins) (node : BVHNode) (md : Vec3) (a : ℕ) (b : Best) : Best :=
  if vcell node.aabbMax a - vcell node.aabbMin a > vcell md a then selSweep bs a 6 b else b

/-- The full split search for one node: fresh `splitCost = 1e30` and
`bestAxis = bestPos = 0`, then the three axes in order. -/
def nodeBest (fr : ℕ → Fragment) (ti : ℕ → ℕ) (md : Vec3) (bb : Best)
    (node : BVHNode) : Best :=
  selAxis (binAll fr ti node.aabbMin (nodeRpd node) node.leftFirst node.triCount) node md 2
    (selAxis (binAll fr ti node.aabbMin (nodeRpd node) node.leftFirst node.triCount) node md 1
      (selAxis (binAll fr ti node.aabbMin (nodeRpd node) node.leftFirst node.triCount) node md 0
        { bb with cost := q30, axis := 0, pos := 0 }))

/-- `tinybvh_swap` on two slots of the index array. -/
def swapStore (ti : ℕ → ℕ) (a b : ℕ) : ℕ → ℕ :=
  Function.update (Function.update ti a (ti b)) b (ti a)

/-- One iteration of the in-place partition loop: classify the fragment at
`src` by its bin along the chosen axis; advance `src` if it stays left,
else swap it behind `j`. -/
def partStep (fr : ℕ → Fragment) (a : ℕ) (rpd nmin : ℚ) (bp : ℕ) :
    (ℕ → ℕ) × ℕ × ℕ → (ℕ → ℕ) × ℕ × ℕ
  | (ti, src, j) =>
    if binIdx (((vcell (fr (ti src)).bmin a + vcell (fr (ti src)).bmax a) * (1/2) - nmin)
        * rpd) ≤ bp then
      (ti, src + 1, j)
    else (swapStore ti src (j - 1), src, j - 1)

/-- The partition loop: `n` iterations of `partStep`. -/
def partLoop (fr : ℕ → Fragment) (a : ℕ) (rpd nmin : ℚ) (bp : ℕ) :
    ℕ → (ℕ → ℕ) × ℕ × ℕ → (ℕ → ℕ) × ℕ × ℕ
  | 0, s => s
  | n + 1, s => partLoop fr a rpd nmin bp n (partStep fr a rpd nmin bp s)

/-- The partition of one node's index range: `src` starts at `leftFirst`,
`j` one past the range, one iteration per fragment. -/
def nodePart (fr : ℕ → Fragment) (ti : ℕ → ℕ) (node : BVHNode) (b : Best) :
    (ℕ → ℕ) × ℕ × ℕ :=
  partLoop fr b.axis (vcell (nodeRpd node) b.axis) (vcell node.aabbMin b.axis) b.pos
    node.triCount (ti, node.leftFirst, node.leftFirst + node.triCount)

/-- The subdivision machine of `BVH::Build`: the current node is the head
of the work list (the source's `nodeIdx` plus `task[]` stack).  A node
either stays a leaf (split not profitable, or a degenerate partition) or is
subdivided: its two children are written at `newNodePtr`, `newNodePtr + 1`,
the left child is processed next and the right child is pushed. -/
def BuildM (fr : ℕ → Fragment) (md : Vec3) :
    ℕ → List ℕ → (ℕ → BVHNode) → (ℕ → ℕ) → ℕ → Best →
    Option ((ℕ → BVHNode) × (ℕ → ℕ) × ℕ)
  | 0, _, _, _, _, _ => none
  | _ + 1, [], ns, ti, np, _ => some (ns, ti, np)
  | fuel + 1, i :: st, ns, ti, np, bb =>
    if (nodeBest fr ti md bb (ns i)).cost ≥
        SA (ns i).aabbMin (ns i).aabbMax * ((ns i).triCount : ℚ) then
      BuildM fr md fuel st ns ti np (nodeBest fr ti md bb (ns i))
    else if (nodePart fr ti (ns i) (nodeBest fr ti md bb (ns i))).2.1
          - (ns i).leftFirst = 0 ∨
        (ns i).triCount - ((nodePart fr ti (ns i) (nodeBest fr ti md bb (ns i))).2.1
          - (ns i).leftFirst) = 0 then
      BuildM fr md fuel st ns (nodePart fr ti (ns i) (nodeBest fr ti md bb (ns i))).1 np
        (nodeBest fr ti md bb (ns i))
    else
      BuildM fr md fuel (np :: (np + 1) :: st)
        (Function.update (Function.update (Function.update ns np
          { aabbMin := (nodeBest fr ti md bb (ns i)).lMin
            leftFirst := (ns i).leftFirst
            aabbMax := (nodeBest fr ti md bb (ns i)).lMax
            triCount := (nodePart fr ti (ns i) (nodeBest fr ti md bb (ns i))).2.1
              - (ns i).leftFirst })
          (np + 1)
          { aabbMin := (nodeBest fr ti md bb (ns i)).rMin
            leftFirst := (nodePart fr ti (ns i) (nodeBest fr ti md bb (ns i))).2.2
            aabbMax := (nodeBest fr ti md bb (ns i)).rMax
            triCount := (ns i).triCount -
              ((nodePart fr ti (ns i) (nodeBest fr ti md bb (ns i))).2.1
                - (ns i).leftFirst) })
          i { ns i with leftFirst := np, triCount := 0 })
        (nodePart fr ti (ns i) (nodeBest fr ti md bb (ns i))).1 (np + 2)
        (nodeBest fr ti md bb (ns i))

/-- `fragment[i].bmin` as initialized by `Build`: the min of the
triangle's three vertices. -/
def fragBMin (verts : ℕ → Vec3) (i : ℕ) : Vec3 :=
  tinybvh_min3 (tinybvh_min3 (verts (i * 3)) (verts (i * 3 + 1))) (verts (i * 3 + 2))

/-- `fragment[i].bmax`: the max of the triangle's three vertices. -/
def fragBMax (verts : ℕ → Vec3) (i : ℕ) : Vec3 :=
  tinybvh_max3 (tinybvh_max3 (verts (i * 3)) (verts (i * 3 + 1))) (verts (i * 3 + 2))

/-- The fragment store after the initialization loop. -/
def initFr (f0 : ℕ → Fragment) (verts : ℕ → Vec3) : ℕ → (ℕ → Fragment)
  | 0 => f0
  | i + 1 => Function.update (initFr f0 verts i) i
      { initFr f0 verts i i with bmin := fragBMin verts i, bmax := fragBMax verts i }

/-- The index array after the initialization loop: `triIdx[i] = i`. -/
def initTi (t0 : ℕ → ℕ) : ℕ → (ℕ → ℕ)
  | 0 => t0
  | i + 1 => Function.update (initTi t0 i) i i

/-- The root's `aabbMin` after the initialization loop. -/
def rootMin (verts : ℕ → Vec3) : ℕ → Vec3
  | 0 => ⟨q30, q30, q30⟩
  | i + 1 => tinybvh_min3 (rootMin verts i) (fragBMin verts i)

/-- The root's `aabbMax` after the initialization loop. -/
def rootMax (verts : ℕ → Vec3) : ℕ → Vec3
  | 0 => ⟨-q30, -q30, -q30⟩
  | i + 1 => tinybvh_max3 (rootMax verts i) (fragBMax verts i)

/-- `BVH::Build`: initialize fragments, `triIdx` and the root node, then
run the subdivision machine from the root with `newNodePtr = 2` and the
best-split bound vectors initialized to zero; on completion set
`idxCount = triCount = primCount` and `usedBVHNodes = newNodePtr`. -/
def Build (b : BVH) (verts : ℕ → Vec3) (primCount fuel : ℕ) : Option BVH :=
  match BuildM (initFr b.fragment verts primCount)
      (vscale (rootMax verts primCount - rootMin verts primCount) (1 / 10 ^ 20)) fuel [0]
      (Function.update b.bvhNode 0
        ⟨rootMin verts primCount, 0, rootMax verts primCount, primCount⟩)
      (initTi b.triIdx primCount) 2
      ⟨q30, 0, 0, ⟨0, 0, 0⟩, ⟨0, 0, 0⟩, ⟨0, 0, 0⟩, ⟨0, 0, 0⟩⟩ with
  | none => none
  | some s =>
    some { b with
      verts := verts
      triCount := primCount
      idxCount := primCount
      fragment := initFr b.fragment verts primCount
      bvhNode := s.1
      triIdx := s.2.1
      usedBVHNodes := s.2.2 }

/-- The `triIdx` slots referenced by the leaves of a tree, in DFS order. -/
def ntSlots : NTree → List ℕ
  | .leaf _ _ f c => List.range' f c
  | .node _ _ l r => ntSlots l ++ ntSlots r

/-- The subtree at slot `i` extracts to `t` from any pool that agrees with
`ns` on slot `i` and on the allocation window `[np, np')`. -/
def ExtractStable (ns : ℕ → BVHNode) (i np np' : ℕ) (t : NTree) : Prop :=
  ∀ B F, ntCount t ≤ F →
    (∀ k, k = i ∨ (np ≤ k ∧ k < np') → B k = ns k) →
    extractWN B F i = some t

/-- Two triangles at huge coordinates (spanning about `3e20` units): every
SAH candidate cost exceeds the `1e30` sentinel, so the split search accepts
no candidate and `splitCost` keeps its `1e30` initial value. -/
def c3verts : ℕ → Vec3 := fun i =>
  if i = 0 then ⟨10 ^ 20, 10 ^ 20, 10 ^ 20⟩ else
  if i = 1 then ⟨105 * 10 ^ 18, 10 ^ 20, 10 ^ 20⟩ else
  if i = 2 then ⟨10 ^ 20, 2 * 10 ^ 20, 10 ^ 20⟩ else
  if i = 3 then ⟨3 * 10 ^ 20, 10 ^ 20, 10 ^ 20⟩ else
  if i = 4 then ⟨4 * 10 ^ 20, 10 ^ 20, 10 ^ 20⟩ else
  if i = 5 then ⟨3 * 10 ^ 20, 2 * 10 ^ 20, 10 ^ 20⟩ else ⟨0, 0, 0⟩

/-- `Build` applied to the huge-coordinate mesh. -/
def c3built : BVH := (Build c2bvh c3verts 2 4).getD c2bvh

/-- `Build` applied to a one-triangle mesh (the witness instance). -/
def c4built : BVH := (Build c2bvh c1verts 1 2).getD c2bvh

/-! ## Spec-side reformulations used to state claims -/

/-- The slab test exactly as worded in the specification (C5): per-axis slab
distances, folded with `max` of the `min`s and `min` of the `max`s. -/
def slabSpecTmin (ray : Ray) (aabbMin aabbMax : Vec3) : ℚ :=
  let t1x := (aabbMin.x - ray.O.x) * ray.rD.x
  let t2x := (aabbMax.x - ray.O.x) * ray.rD.x
  let t1y := (aabbMin.y - ray.O.y) * ray.rD.y
  let t2y := (aabbMax.y - ray.O.y) * ray.rD.y
  let t1z := (aabbMin.z - ray.O.z) * ray.rD.z
  let t2z := (aabbMax.z - ray.O.z) * ray.rD.z
  max (max (min t1x t2x) (min t1y t2y)) (min t1z t2z)

/-- Companion of `slabSpecTmin`: the folded exit distance. -/
def slabSpecTmax (ray : Ray) (aabbMin aabbMax : Vec3) : ℚ :=
  let t1x := (aabbMin.x - ray.O.x) * ray.rD.x
  let t2x := (aabbMax.x - ray.O.x) * ray.rD.x
  let t1y := (aabbMin.y - ray.O.y) * ray.rD.y
  let t2y := (aabbMax.y - ray.O.y) * ray.rD.y
  let t1z := (aabbMin.z - ray.O.z) * ray.rD.z
  let t2z := (aabbMax.z - ray.O.z) * ray.rD.z
  min (min (max t1x t2x) (max t1y t2y)) (max t1z t2z)

/-! ## Basic lemmas about the scalar kernels -/

theorem tinybvh_minq_eq_min (a b : ℚ) : tinybvh_minq a b = min a b := by
  unfold tinybvh_minq
  rcases lt_or_le a b with h | h
  · rw [if_pos h, min_eq_left h.le]
  · rw [if_neg (not_lt.mpr h), min_eq_right h]

theorem tinybvh_maxq_eq_max (a b : ℚ) : tinybvh_maxq a b = max a b := by
  unfold tinybvh_maxq
  rcases lt_or_le b a with h | h
  · rw [if_pos h, max_eq_left h.le]
  · rw [if_neg (not_lt.mpr h), max_eq_right h]

/-- **C5.**  `IntersectAABB` returns the folded slab entry distance exactly
when the folded intervals overlap, the entry is closer than the current best
hit, and the exit is non-negative; otherwise it returns the `1e30` sentinel. -/
theorem C5_IntersectAABB_slab_spec (ray : Ray) (aabbMin aabbMax : Vec3) :
    IntersectAABB ray aabbMin aabbMax =
      if slabSpecTmax ray aabbMin aabbMax ≥ slabSpecTmin ray aabbMin aabbMax ∧
         slabSpecTmin ray aabbMin aabbMax < ray.hit.t ∧
         slabSpecTmax ray aabbMin aabbMax ≥ 0
      then slabSpecTmin ray aabbMin aabbMax else q30 := by
  unfold IntersectAABB slabSpecTmin slabSpecTmax
  simp only [tinybvh_minq_eq_min, tinybvh_maxq_eq_max]

/-- **C7 counterexample.**  At `x = -1e-13` (a small negative value) the code
returns the positive sentinel `1e30`, not `-1e30`: the sign is *not*
preserved for the small-negative case. -/
theorem C7_cx_safercp_small_negative :
    tinybvh_safercp (-(1 / 10 ^ 13)) = q30 ∧ q30 ≠ -q30 := by
  constructor
  · unfold tinybvh_safercp
    norm_num
  · unfold q30
    norm_num

/-- **C7 (amended).**  `tinybvh_safercp x = 1/x` when `|x| > 1e-12`, and
`tinybvh_safercp x = 1e30` (always the positive sentinel, regardless of the
sign of `x`) when `|x| ≤ 1e-12`. -/
theorem C7_safercp_amended (x : ℚ) :
    (|x| > 1 / 10 ^ 12 → tinybvh_safercp x = 1 / x) ∧
    (|x| ≤ 1 / 10 ^ 12 → tinybvh_safercp x = q30) := by
  constructor
  · intro h
    unfold tinybvh_safercp
    rcases lt_or_le (1 / 10 ^ 12 : ℚ) x with hx | hx
    · rw [if_pos hx]
    · have hneg : x < -(1 / 10 ^ 12) := by
        rcases abs_cases x with ⟨he, _⟩ | ⟨he, _⟩
        · rw [he] at h; linarith
        · rw [he] at h; linarith
      rw [if_neg (not_lt.mpr hx), if_pos hneg]
  · intro h
    unfold tinybvh_safercp
    have hub : x ≤ 1 / 10 ^ 12 := le_trans (le_abs_self x) h
    have hlb : -(1 / 10 ^ 12) ≤ x := by
      have := neg_abs_le x
      linarith
    rw [if_neg (not_lt.mpr hub), if_neg (not_lt.mpr hlb)]

/-- **C7 witness.**  The amended theorem applied at `x = 2` and `x = -1e-13`. -/
theorem C7_safercp_amended_witness :
    tinybvh_safercp 2 = 1 / 2 ∧ tinybvh_safercp (-(1 / 10 ^ 13)) = q30 :=
  ⟨(C7_safercp_amended 2).1 (by norm_num),
   (C7_safercp_amended (-(1 / 10 ^ 13))).2 (by rw [abs_of_nonpos (by norm_num)]; norm_num)⟩

/-- **C1 counterexample.**  A concrete BVH state with `refittable = false`
on which `Refit()` runs anyway and silently recomputes the node AABBs: the
stale root box `[5,6]^3` is replaced by the recomputed box of the single
triangle.  There is no check of `refittable` in `BVH::Refit`. -/
theorem C1_cx_refit_recomputes_when_not_refittable :
    c1bvh.refittable = false ∧ (Refit c1bvh).bvhNode 0 ≠ c1bvh.bvhNode 0 ∧
    (Refit c1bvh).bvhNode 0 = ⟨⟨0, 0, 0⟩, 0, ⟨1, 1, 0⟩, 1⟩ := by
  refine ⟨rfl, by decide, by decide⟩

/-- **C1 (amended).**  `Refit()` does not consult `refittable` at all: it
unconditionally recomputes all node AABBs (leaves from the vertices,
interior nodes from their children, in reverse node order), and its effect
on the node pool is independent of the value of the `refittable` flag. -/
theorem C1_refit_ignores_refittable (b : BVH) (r : Bool) :
    (Refit b).bvhNode = RefitLoop b.verts b.triIdx b.usedBVHNodes b.bvhNode ∧
    (Refit { b with refittable := r }).bvhNode = (Refit b).bvhNode ∧
    (Refit b).refittable = b.refittable :=
  ⟨rfl, rfl, rfl⟩

/-- **C9 counterexample.**  Two `BVH` objects in identical states (both with
verbose pool `c9verbose`, 12 used nodes).  At process start the shared
`static` seed is `0x12345678`.  If `Optimize` is called on object B first,
its selection loop picks node `6` (after 3 draws, seed `1210119364`).  If
`Optimize` was previously called once on object A (advancing the shared seed
to `1210119364`), the same call on B picks node `7` instead: the choice
sequence is *not* independent of calls on the other instance. -/
theorem C9_cx_optimize_prng_shared_across_instances :
    pickRandomNode c9verbose 12 30 optimizeSeed0 = some (6, 1210119364) ∧
    pickRandomNode c9verbose 12 30 1210119364 = some (7, 760528575) ∧
    (6 : ℕ) ≠ 7 := by
  refine ⟨by decide, by decide, by decide⟩

/-- **C9 (amended).**  The PRNG state used by `Optimize` is a function-local
`static`, i.e. a single per-process seed shared by all `BVH` instances and
initialized once to `0x12345678`; each selection returns the first valid
node along the deterministic xorshift32 orbit of the shared seed, so the
choice is a function of the shared seed (which prior `Optimize` calls on any
instance advance) and the node pool. -/
theorem C9_optimize_prng_characterization (v : ℕ → BVHNodeVerbose) (used : ℕ) :
    ∀ fuel seed n s', pickRandomNode v used fuel seed = some (n, s') →
      ∃ k, 1 ≤ k ∧ k ≤ fuel ∧ s' = xorshift32^[k] seed ∧
        n = 2 + s' % (used - 2) ∧
        (v n).parent ≠ 0 ∧ (v n).isLeaf = false ∧
        (v ((v n).parent)).parent ≠ 0 := by
  intro fuel
  induction fuel with
  | zero =>
    intro seed n s' h
    exact absurd h (by simp [pickRandomNode])
  | succ f ih =>
    intro seed n s' h
    rw [pickRandomNode] at h
    by_cases hv : (v (2 + xorshift32 seed % (used - 2))).parent ≠ 0 ∧
        (v (2 + xorshift32 seed % (used - 2))).isLeaf = false ∧
        (v ((v (2 + xorshift32 seed % (used - 2))).parent)).parent ≠ 0
    · rw [if_pos hv] at h
      have hpair := Option.some.inj h
      have hn : n = 2 + xorshift32 seed % (used - 2) := (congrArg Prod.fst hpair).symm
      have hs : s' = xorshift32 seed := (congrArg Prod.snd hpair).symm
      refine ⟨1, le_refl 1, Nat.succ_le_succ (Nat.zero_le f), ?_, ?_, ?_⟩
      · rw [Function.iterate_one]; exact hs
      · rw [hs]; exact hn
      · rw [hn]; exact hv
    · rw [if_neg hv] at h
      obtain ⟨k, hk1, hkf, hks, hkn, hkv⟩ := ih (xorshift32 seed) n s' h
      refine ⟨k + 1, le_add_self.trans (le_refl _), Nat.succ_le_succ hkf, ?_, hkn, hkv⟩
      rw [Function.iterate_succ_apply, ← hks]

/-- **C9 witness** for the characterization theorem, at the counterexample
data: the first pick from the initial seed is node 6 with seed
`1210119364 = xorshift32^[3] 0x12345678`. -/
theorem C9_optimize_prng_characterization_witness :
    ∃ k, 1 ≤ k ∧ k ≤ 30 ∧ (1210119364 : ℕ) = xorshift32^[k] optimizeSeed0 ∧
      (6 : ℕ) = 2 + 1210119364 % (12 - 2) ∧
      (c9verbose 6).parent ≠ 0 ∧ (c9verbose 6).isLeaf = false ∧
      (c9verbose ((c9verbose 6).parent)).parent ≠ 0 :=
  C9_optimize_prng_characterization c9verbose 12 30 optimizeSeed0 6 1210119364 (by decide)

/-- **C10.**  The `Ray(origin, direction, t)` constructor zero-initializes
the ray, then sets `O = origin`, `D = normalize(direction)`,
`rD = safercp(D)` componentwise, and `hit.t = t`; in particular `hit.u`,
`hit.v`, `hit.prim` start at zero, `rD` is established by the constructor,
and (whenever the modelled `sqrtf` sends `0` to `0`) `normalize` maps the
zero direction to the zero vector. -/
theorem C10_ray_constructor (sq : ℚ → ℚ) (o d : Vec3) (t : ℚ) :
    (mkRay sq o d t).O = o ∧
    (mkRay sq o d t).D = vnormalize sq d ∧
    (mkRay sq o d t).rD = tinybvh_safercp3 (vnormalize sq d) ∧
    (mkRay sq o d t).hit.t = t ∧
    (mkRay sq o d t).hit.u = 0 ∧
    (mkRay sq o d t).hit.v = 0 ∧
    (mkRay sq o d t).hit.prim = 0 ∧
    (sq 0 = 0 → d = ⟨0, 0, 0⟩ → vnormalize sq d = ⟨0, 0, 0⟩) := by
  refine ⟨rfl, rfl, rfl, rfl, rfl, rfl, rfl, ?_⟩
  intro h0 hd
  subst hd
  simp only [vnormalize, vlength, vscale]
  norm_num [h0]

/-- **C10 witness**: the constructor theorem applied at `sq = id`,
`o = (1,2,3)`, `d = 0`, `t = 5`. -/
theorem C10_ray_constructor_witness :
    (mkRay (fun q => q) ⟨1, 2, 3⟩ ⟨0, 0, 0⟩ 5).hit.t = 5 ∧
    vnormalize (fun q => q) ⟨0, 0, 0⟩ = ⟨0, 0, 0⟩ :=
  ⟨(C10_ray_constructor (fun q => q) ⟨1, 2, 3⟩ ⟨0, 0, 0⟩ 5).2.2.2.1,
   (C10_ray_constructor (fun q => q) ⟨1, 2, 3⟩ ⟨0, 0, 0⟩ 5).2.2.2.2.2.2.2 rfl rfl⟩

/-- `IntersectTri` either leaves the ray unchanged, or writes
`(t, u, v, idx)` into `ray.hit` for some distance with `0 < t < ray.hit.t`. -/
theorem intersectTri_write_cases (verts : ℕ → Vec3) (ray : Ray) (idx : ℕ) :
    IntersectTri verts ray idx = ray ∨
    ∃ t u v, 0 < t ∧ t < ray.hit.t ∧
      IntersectTri verts ray idx = { ray with hit := ⟨t, u, v, idx⟩ } := by
  simp only [IntersectTri]
  split_ifs with h1 h2 h3 h4
  · exact Or.inl rfl
  · exact Or.inl rfl
  · exact Or.inl rfl
  · exact Or.inr ⟨_, _, _, h4.1, h4.2, rfl⟩
  · exact Or.inl rfl

/-- A single `IntersectTri` call never increases `hit.t`. -/
theorem intersectTri_hit_mono (verts : ℕ → Vec3) (ray : Ray) (idx : ℕ) :
    (IntersectTri verts ray idx).hit.t ≤ ray.hit.t := by
  rcases intersectTri_write_cases verts ray idx with h | ⟨t, u, v, _, hlt, h⟩
  · rw [h]
  · rw [h]; exact le_of_lt hlt

/-- `IntersectTri` changes nothing but the hit record. -/
theorem intersectTri_frame (verts : ℕ → Vec3) (ray : Ray) (idx : ℕ) :
    (IntersectTri verts ray idx).O = ray.O ∧ (IntersectTri verts ray idx).D = ray.D ∧
    (IntersectTri verts ray idx).rD = ray.rD := by
  rcases intersectTri_write_cases verts ray idx with h | ⟨t, u, v, _, _, h⟩ <;>
    rw [h] <;> exact ⟨rfl, rfl, rfl⟩

/-- The leaf loop never increases `hit.t`. -/
theorem intersectTris_hit_mono (verts : ℕ → Vec3) (triIdx : ℕ → ℕ) :
    ∀ c first ray, (IntersectTris verts triIdx first c ray).hit.t ≤ ray.hit.t := by
  intro c
  induction c with
  | zero => intro first ray; exact le_refl _
  | succ c ih =>
    intro first ray
    exact le_trans (ih (first + 1) (IntersectTri verts ray (triIdx first)))
      (intersectTri_hit_mono verts ray (triIdx first))

/-- Any sequence of `IntersectTri` calls never increases `hit.t`. -/
theorem intersectTri_foldl_mono (verts : ℕ → Vec3) :
    ∀ (l : List ℕ) (ray : Ray), (l.foldl (IntersectTri verts) ray).hit.t ≤ ray.hit.t := by
  intro l
  induction l with
  | nil => intro ray; exact le_refl _
  | cons a l ih =>
    intro ray
    exact le_trans (ih (IntersectTri verts ray a)) (intersectTri_hit_mono verts ray a)

/-- A full Wald-layout traversal never increases `hit.t`. -/
theorem intersectW_hit_mono (verts : ℕ → Vec3) (triIdx : ℕ → ℕ) (ns : ℕ → BVHNode) :
    ∀ fuel st ray steps r s,
      IntersectW verts triIdx ns fuel st ray steps = some (r, s) →
      r.hit.t ≤ ray.hit.t := by
  intro fuel
  induction fuel with
  | zero =>
    intro st ray steps r s h
    exact absurd h (by simp [IntersectW])
  | succ f ih =>
    intro st ray steps r s h
    cases st with
    | nil =>
      rw [IntersectW] at h
      have h1 : ray = r := congrArg Prod.fst (Option.some.inj h)
      rw [← h1]
    | cons i st =>
      rw [IntersectW] at h
      by_cases hl : (ns i).isLeaf
      · rw [if_pos hl] at h
        exact le_trans (ih _ _ _ _ _ h) (intersectTris_hit_mono verts triIdx _ _ ray)
      · rw [if_neg hl] at h
        split_ifs at h <;> exact ih _ _ _ _ _ h

/-- **C6.**  `IntersectTri` writes `(t, u, v, primIdx)` into `ray.hit` only
when the computed distance satisfies `0 < t < ray.hit.t` and otherwise
leaves the ray unchanged; consequently `hit.t` never increases across a
single call, across any sequence of `IntersectTri` calls, or across a full
`Intersect` traversal (and hence across repeated traversals) of the same
BVH. -/
theorem C6_intersectTri_never_widens (verts : ℕ → Vec3) (triIdx : ℕ → ℕ)
    (ns : ℕ → BVHNode) (ray : Ray) (idx : ℕ) :
    (IntersectTri verts ray idx = ray ∨
      ∃ t u v, 0 < t ∧ t < ray.hit.t ∧
        IntersectTri verts ray idx = { ray with hit := ⟨t, u, v, idx⟩ }) ∧
    (IntersectTri verts ray idx).hit.t ≤ ray.hit.t ∧
    (∀ l : List ℕ, (l.foldl (IntersectTri verts) ray).hit.t ≤ ray.hit.t) ∧
    (∀ fuel st steps r s,
      IntersectW verts triIdx ns fuel st ray steps = some (r, s) →
      r.hit.t ≤ ray.hit.t) :=
  ⟨intersectTri_write_cases verts ray idx,
   intersectTri_hit_mono verts ray idx,
   fun l => intersectTri_foldl_mono verts l ray,
   fun _ _ _ _ _ h => intersectW_hit_mono verts triIdx ns _ _ _ _ _ _ h⟩

/-- **C6 witness**: a concrete traversal of a one-leaf BVH that registers a
hit at `t = 1`, with the claim theorem applied to conclude `1 ≤ 1e30`. -/
theorem C6_intersectTri_never_widens_witness :
    IntersectW c1verts (fun _ => 0) c6nodes 2 [0] c6ray 0 =
      some ({ c6ray with hit := ⟨1, 1/4, 1/4, 0⟩ }, 1) ∧
    (1 : ℚ) ≤ c6ray.hit.t := by
  constructor
  · decide
  · have h := (C6_intersectTri_never_widens c1verts (fun _ => 0) c6nodes c6ray 0).2.2.2
      2 [0] 0 ({ c6ray with hit := ⟨1, 1/4, 1/4, 0⟩ }) 1 (by decide)
    exact h

/-- The inline slab computation of `Intersect_AilaLaine` coincides with
`IntersectAABB`. -/
theorem altChildDist_eq (ray : Ray) (cmin cmax : Vec3) :
    altChildDist ray cmin cmax = IntersectAABB ray cmin cmax := rfl

/-- Fuel monotonicity of the Wald traversal machine. -/
theorem intersectW_fuel_mono (verts : ℕ → Vec3) (triIdx : ℕ → ℕ) (ns : ℕ → BVHNode) :
    ∀ fuel st ray steps r, IntersectW verts triIdx ns fuel st ray steps = some r →
      IntersectW verts triIdx ns (fuel + 1) st ray steps = some r := by
  intro fuel
  induction fuel with
  | zero => intro st ray steps r h; exact absurd h (by simp [IntersectW])
  | succ f ih =>
    intro st ray steps r h
    cases st with
    | nil => rw [IntersectW] at h ⊢; exact h
    | cons i st =>
      rw [IntersectW] at h ⊢
      by_cases hl : (ns i).isLeaf
      · rw [if_pos hl] at h ⊢; exact ih _ _ _ _ h
      · rw [if_neg hl] at h ⊢
        split_ifs at h ⊢ <;> exact ih _ _ _ _ h

/-- Fuel monotonicity, `≤` form. -/
theorem intersectW_fuel_mono_le (verts : ℕ → Vec3) (triIdx : ℕ → ℕ) (ns : ℕ → BVHNode)
    {fuel fuel' : ℕ} (hle : fuel ≤ fuel') :
    ∀ st ray steps r, IntersectW verts triIdx ns fuel st ray steps = some r →
      IntersectW verts triIdx ns fuel' st ray steps = some r := by
  induction hle with
  | refl => exact fun _ _ _ _ h => h
  | step _ ih => exact fun st ray steps r h =>
      intersectW_fuel_mono verts triIdx ns _ st ray steps r (ih st ray steps r h)

/-- Fuel monotonicity of the Aila-Laine traversal machine. -/
theorem intersectA_fuel_mono (verts : ℕ → Vec3) (triIdx : ℕ → ℕ) (alt : ℕ → BVHNodeAlt) :
    ∀ fuel st ray steps r, IntersectA verts triIdx alt fuel st ray steps = some r →
      IntersectA verts triIdx alt (fuel + 1) st ray steps = some r := by
  intro fuel
  induction fuel with
  | zero => intro st ray steps r h; exact absurd h (by simp [IntersectA])
  | succ f ih =>
    intro st ray steps r h
    cases st with
    | nil => rw [IntersectA] at h ⊢; exact h
    | cons i st =>
      rw [IntersectA] at h ⊢
      by_cases hl : (alt i).isLeaf
      · rw [if_pos hl] at h ⊢; exact ih _ _ _ _ h
      · rw [if_neg hl] at h ⊢
        split_ifs at h ⊢ <;> exact ih _ _ _ _ h

/-- Fuel monotonicity, `≤` form. -/
theorem intersectA_fuel_mono_le (verts : ℕ → Vec3) (triIdx : ℕ → ℕ) (alt : ℕ → BVHNodeAlt)
    {fuel fuel' : ℕ} (hle : fuel ≤ fuel') :
    ∀ st ray steps r, IntersectA verts triIdx alt fuel st ray steps = some r →
      IntersectA verts triIdx alt fuel' st ray steps = some r := by
  induction hle with
  | refl => exact fun _ _ _ _ h => h
  | step _ ih => exact fun st ray steps r h =>
      intersectA_fuel_mono verts triIdx alt _ st ray steps r (ih st ray steps r h)

/-- Simulation: starting the Wald machine on a node that encodes the tree
`t` runs the reference traversal of `t` and then continues with the rest of
the work list. -/
theorem intersectW_tree (verts : ℕ → Vec3) (triIdx : ℕ → ℕ) (ns : ℕ → BVHNode) :
    ∀ (t : BTree) (F i : ℕ), extractW ns F i = some t →
    ∀ (st : List ℕ) (ray : Ray) (steps f : ℕ),
      IntersectW verts triIdx ns ((travB verts triIdx t ray).2 + f) (i :: st) ray steps =
      IntersectW verts triIdx ns f st (travB verts triIdx t ray).1
        (steps + (travB verts triIdx t ray).2) := by
  intro t
  induction t with
  | leaf first count =>
    intro F i hx st ray steps f
    cases F with
    | zero => exact absurd hx (by simp [extractW])
    | succ F =>
      rw [extractW] at hx
      by_cases hl : (ns i).isLeaf
      · rw [if_pos hl] at hx
        obtain ⟨h1, h2⟩ := BTree.leaf.inj (Option.some.inj hx)
        have htrav : travB verts triIdx (.leaf first count) ray =
            (IntersectTris verts triIdx first count ray, 1) := rfl
        simp only [htrav]
        rw [Nat.add_comm 1 f]
        rw [IntersectW, if_pos hl, h1, h2, Nat.add_comm steps 1]
      · rw [if_neg hl] at hx
        cases hel : extractW ns F (ns i).leftFirst with
        | none => rw [hel] at hx; simp at hx
        | some l' =>
          cases her : extractW ns F ((ns i).leftFirst + 1) with
          | none => rw [hel, her] at hx; simp at hx
          | some r' => rw [hel, her] at hx; simp at hx
  | node lmin lmax rmin rmax l r ihl ihr =>
    intro F i hx st ray steps f
    cases F with
    | zero => exact absurd hx (by simp [extractW])
    | succ F =>
      rw [extractW] at hx
      by_cases hl : (ns i).isLeaf
      · rw [if_pos hl] at hx; simp at hx
      · rw [if_neg hl] at hx
        cases hel : extractW ns F (ns i).leftFirst with
        | none => rw [hel] at hx; simp at hx
        | some l' =>
          cases her : extractW ns F ((ns i).leftFirst + 1) with
          | none => rw [hel, her] at hx; simp at hx
          | some r' =>
            rw [hel, her] at hx
            obtain ⟨hb1, hb2, hb3, hb4, hbl, hbr⟩ := BTree.node.inj (Option.some.inj hx)
            subst hbl hbr
            by_cases hgt : IntersectAABB ray lmin lmax > IntersectAABB ray rmin rmax
            · by_cases hm : IntersectAABB ray rmin rmax = q30
              · have htrav : travB verts triIdx (.node lmin lmax rmin rmax l' r') ray =
                    (ray, 1) := by
                  rw [travB, if_pos hgt, if_pos hm]
                simp only [htrav]
                rw [Nat.add_comm 1 f, IntersectW, if_neg hl, hb1, hb2, hb3, hb4,
                  if_pos hgt, if_pos hm, Nat.add_comm steps 1]
              · by_cases hn : IntersectAABB ray lmin lmax ≠ q30
                · have htrav : travB verts triIdx (.node lmin lmax rmin rmax l' r') ray =
                      ((travB verts triIdx l' (travB verts triIdx r' ray).1).1,
                       1 + (travB verts triIdx r' ray).2 +
                         (travB verts triIdx l' (travB verts triIdx r' ray).1).2) := by
                    rw [travB, if_pos hgt, if_neg hm, if_pos hn]
                  simp only [htrav]
                  have hfuel : 1 + (travB verts triIdx r' ray).2 +
                      (travB verts triIdx l' (travB verts triIdx r' ray).1).2 + f =
                      ((travB verts triIdx r' ray).2 +
                        ((travB verts triIdx l' (travB verts triIdx r' ray).1).2 + f)) + 1 := by
                    omega
                  rw [hfuel, IntersectW, if_neg hl, hb1, hb2, hb3, hb4,
                    if_pos hgt, if_neg hm, if_pos hn]
                  rw [ihr F _ her (_ :: st) ray (steps + 1)
                    ((travB verts triIdx l' (travB verts triIdx r' ray).1).2 + f)]
                  rw [ihl F _ hel st (travB verts triIdx r' ray).1
                    (steps + 1 + (travB verts triIdx r' ray).2) f]
                  have hsteps : steps + 1 + (travB verts triIdx r' ray).2 +
                      (travB verts triIdx l' (travB verts triIdx r' ray).1).2 =
                      steps + (1 + (travB verts triIdx r' ray).2 +
                        (travB verts triIdx l' (travB verts triIdx r' ray).1).2) := by
                    omega
                  rw [hsteps]
                · have hn' : IntersectAABB ray lmin lmax = q30 := by
                    by_contra hc; exact hn hc
                  have htrav : travB verts triIdx (.node lmin lmax rmin rmax l' r') ray =
                      ((travB verts triIdx r' ray).1, 1 + (travB verts triIdx r' ray).2) := by
                    rw [travB, if_pos hgt, if_neg hm, if_neg hn]
                  simp only [htrav]
                  have hfuel : 1 + (travB verts triIdx r' ray).2 + f =
                      ((travB verts triIdx r' ray).2 + f) + 1 := by omega
                  rw [hfuel, IntersectW, if_neg hl, hb1, hb2, hb3, hb4,
                    if_pos hgt, if_neg hm, if_neg hn]
                  rw [ihr F _ her st ray (steps + 1) f]
                  have hsteps : steps + 1 + (travB verts triIdx r' ray).2 =
                      steps + (1 + (travB verts triIdx r' ray).2) := by omega
                  rw [hsteps]
            · by_cases hm : IntersectAABB ray lmin lmax = q30
              · have htrav : travB verts triIdx (.node lmin lmax rmin rmax l' r') ray =
                    (ray, 1) := by
                  rw [travB, if_neg hgt, if_pos hm]
                simp only [htrav]
                rw [Nat.add_comm 1 f, IntersectW, if_neg hl, hb1, hb2, hb3, hb4,
                  if_neg hgt, if_pos hm, Nat.add_comm steps 1]
              · by_cases hn : IntersectAABB ray rmin rmax ≠ q30
                · have htrav : travB verts triIdx (.node lmin lmax rmin rmax l' r') ray =
                      ((travB verts triIdx r' (travB verts triIdx l' ray).1).1,
                       1 + (travB verts triIdx l' ray).2 +
                         (travB verts triIdx r' (travB verts triIdx l' ray).1).2) := by
                    rw [travB, if_neg hgt, if_neg hm, if_pos hn]
                  simp only [htrav]
                  have hfuel : 1 + (travB verts triIdx l' ray).2 +
                      (travB verts triIdx r' (travB verts triIdx l' ray).1).2 + f =
                      ((travB verts triIdx l' ray).2 +
                        ((travB verts triIdx r' (travB verts triIdx l' ray).1).2 + f)) + 1 := by
                    omega
                  rw [hfuel, IntersectW, if_neg hl, hb1, hb2, hb3, hb4,
                    if_neg hgt, if_neg hm, if_pos hn]
                  rw [ihl F _ hel (_ :: st) ray (steps + 1)
                    ((travB verts triIdx r' (travB verts triIdx l' ray).1).2 + f)]
                  rw [ihr F _ her st (travB verts triIdx l' ray).1
                    (steps + 1 + (travB verts triIdx l' ray).2) f]
                  have hsteps : steps + 1 + (travB verts triIdx l' ray).2 +
                      (travB verts triIdx r' (travB verts triIdx l' ray).1).2 =
                      steps + (1 + (travB verts triIdx l' ray).2 +
                        (travB verts triIdx r' (travB verts triIdx l' ray).1).2) := by
                    omega
                  rw [hsteps]
                · have htrav : travB verts triIdx (.node lmin lmax rmin rmax l' r') ray =
                      ((travB verts triIdx l' ray).1, 1 + (travB verts triIdx l' ray).2) := by
                    rw [travB, if_neg hgt, if_neg hm, if_neg hn]
                  simp only [htrav]
                  have hfuel : 1 + (travB verts triIdx l' ray).2 + f =
                      ((travB verts triIdx l' ray).2 + f) + 1 := by omega
                  rw [hfuel, IntersectW, if_neg hl, hb1, hb2, hb3, hb4,
                    if_neg hgt, if_neg hm, if_neg hn]
                  rw [ihl F _ hel st ray (steps + 1) f]
                  have hsteps : steps + 1 + (travB verts triIdx l' ray).2 =
                      steps + (1 + (travB verts triIdx l' ray).2) := by omega
                  rw [hsteps]

/-- Simulation: starting the Aila-Laine machine on a node that encodes the
tree `t` runs the same reference traversal of `t` and then continues with
the rest of the work list. -/
theorem intersectA_tree (verts : ℕ → Vec3) (triIdx : ℕ → ℕ) (alt : ℕ → BVHNodeAlt) :
    ∀ (t : BTree) (F i : ℕ), extractA alt F i = some t →
    ∀ (st : List ℕ) (ray : Ray) (steps f : ℕ),
      IntersectA verts triIdx alt ((travB verts triIdx t ray).2 + f) (i :: st) ray steps =
      IntersectA verts triIdx alt f st (travB verts triIdx t ray).1
        (steps + (travB verts triIdx t ray).2) := by
  intro t
  induction t with
  | leaf first count =>
    intro F i hx st ray steps f
    cases F with
    | zero => exact absurd hx (by simp [extractA])
    | succ F =>
      rw [extractA] at hx
      by_cases hl : (alt i).isLeaf
      · rw [if_pos hl] at hx
        obtain ⟨h1, h2⟩ := BTree.leaf.inj (Option.some.inj hx)
        have htrav : travB verts triIdx (.leaf first count) ray =
            (IntersectTris verts triIdx first count ray, 1) := rfl
        simp only [htrav]
        rw [Nat.add_comm 1 f]
        rw [IntersectA, if_pos hl, h1, h2, Nat.add_comm steps 1]
      · rw [if_neg hl] at hx
        cases hel : extractA alt F (alt i).left with
        | none => rw [hel] at hx; simp at hx
        | some l' =>
          cases her : extractA alt F (alt i).right with
          | none => rw [hel, her] at hx; simp at hx
          | some r' => rw [hel, her] at hx; simp at hx
  | node lmin lmax rmin rmax l r ihl ihr =>
    intro F i hx st ray steps f
    cases F with
    | zero => exact absurd hx (by simp [extractA])
    | succ F =>
      rw [extractA] at hx
      by_cases hl : (alt i).isLeaf
      · rw [if_pos hl] at hx; simp at hx
      · rw [if_neg hl] at hx
        cases hel : extractA alt F (alt i).left with
        | none => rw [hel] at hx; simp at hx
        | some l' =>
          cases her : extractA alt F (alt i).right with
          | none => rw [hel, her] at hx; simp at hx
          | some r' =>
            rw [hel, her] at hx
            obtain ⟨hb1, hb2, hb3, hb4, hbl, hbr⟩ := BTree.node.inj (Option.some.inj hx)
            subst hbl hbr
            by_cases hgt : IntersectAABB ray lmin lmax > IntersectAABB ray rmin rmax
            · by_cases hm : IntersectAABB ray rmin rmax = q30
              · have htrav : travB verts triIdx (.node lmin lmax rmin rmax l' r') ray =
                    (ray, 1) := by
                  rw [travB, if_pos hgt, if_pos hm]
                simp only [htrav]
                rw [Nat.add_comm 1 f, IntersectA, if_neg hl]
                simp only [altChildDist_eq]
                rw [hb1, hb2, hb3, hb4, if_pos hgt, if_pos hm, Nat.add_comm steps 1]
              · by_cases hn : IntersectAABB ray lmin lmax ≠ q30
                · have htrav : travB verts triIdx (.node lmin lmax rmin rmax l' r') ray =
                      ((travB verts triIdx l' (travB verts triIdx r' ray).1).1,
                       1 + (travB verts triIdx r' ray).2 +
                         (travB verts triIdx l' (travB verts triIdx r' ray).1).2) := by
                    rw [travB, if_pos hgt, if_neg hm, if_pos hn]
                  simp only [htrav]
                  have hfuel : 1 + (travB verts triIdx r' ray).2 +
                      (travB verts triIdx l' (travB verts triIdx r' ray).1).2 + f =
                      ((travB verts triIdx r' ray).2 +
                        ((travB verts triIdx l' (travB verts triIdx r' ray).1).2 + f)) + 1 := by
                    omega
                  rw [hfuel, IntersectA, if_neg hl]
                  simp only [altChildDist_eq]
                  rw [hb1, hb2, hb3, hb4, if_pos hgt, if_neg hm, if_pos hn]
                  rw [ihr F _ her (_ :: st) ray (steps + 1)
                    ((travB verts triIdx l' (travB verts triIdx r' ray).1).2 + f)]
                  rw [ihl F _ hel st (travB verts triIdx r' ray).1
                    (steps + 1 + (travB verts triIdx r' ray).2) f]
                  have hsteps : steps + 1 + (travB verts triIdx r' ray).2 +
                      (travB verts triIdx l' (travB verts triIdx r' ray).1).2 =
                      steps + (1 + (travB verts triIdx r' ray).2 +
                        (travB verts triIdx l' (travB verts triIdx r' ray).1).2) := by
                    omega
                  rw [hsteps]
                · have htrav : travB verts triIdx (.node lmin lmax rmin rmax l' r') ray =
                      ((travB verts triIdx r' ray).1, 1 + (travB verts triIdx r' ray).2) := by
                    rw [travB, if_pos hgt, if_neg hm, if_neg hn]
                  simp only [htrav]
                  have hfuel : 1 + (travB verts triIdx r' ray).2 + f =
                      ((travB verts triIdx r' ray).2 + f) + 1 := by omega
                  rw [hfuel, IntersectA, if_neg hl]
                  simp only [altChildDist_eq]
                  rw [hb1, hb2, hb3, hb4, if_pos hgt, if_neg hm, if_neg hn]
                  rw [ihr F _ her st ray (steps + 1) f]
                  have hsteps : steps + 1 + (travB verts triIdx r' ray).2 =
                      steps + (1 + (travB verts triIdx r' ray).2) := by omega
                  rw [hsteps]
            · by_cases hm : IntersectAABB ray lmin lmax = q30
              · have htrav : travB verts triIdx (.node lmin lmax rmin rmax l' r') ray =
                    (ray, 1) := by
                  rw [travB, if_neg hgt, if_pos hm]
                simp only [htrav]
                rw [Nat.add_comm 1 f, IntersectA, if_neg hl]
                simp only [altChildDist_eq]
                rw [hb1, hb2, hb3, hb4, if_neg hgt, if_pos hm, Nat.add_comm steps 1]
              · by_cases hn : IntersectAABB ray rmin rmax ≠ q30
                · have htrav : travB verts triIdx (.node lmin lmax rmin rmax l' r') ray =
                      ((travB verts triIdx r' (travB verts triIdx l' ray).1).1,
                       1 + (travB verts triIdx l' ray).2 +
                         (travB verts triIdx r' (travB verts triIdx l' ray).1).2) := by
                    rw [travB, if_neg hgt, if_neg hm, if_pos hn]
                  simp only [htrav]
                  have hfuel : 1 + (travB verts triIdx l' ray).2 +
                      (travB verts triIdx r' (travB verts triIdx l' ray).1).2 + f =
                      ((travB verts triIdx l' ray).2 +
                        ((travB verts triIdx r' (travB verts triIdx l' ray).1).2 + f)) + 1 := by
                    omega
                  rw [hfuel, IntersectA, if_neg hl]
                  simp only [altChildDist_eq]
                  rw [hb1, hb2, hb3, hb4, if_neg hgt, if_neg hm, if_pos hn]
                  rw [ihl F _ hel (_ :: st) ray (steps + 1)
                    ((travB verts triIdx r' (travB verts triIdx l' ray).1).2 + f)]
                  rw [ihr F _ her st (travB verts triIdx l' ray).1
                    (steps + 1 + (travB verts triIdx l' ray).2) f]
                  have hsteps : steps + 1 + (travB verts triIdx l' ray).2 +
                      (travB verts triIdx r' (travB verts triIdx l' ray).1).2 =
                      steps + (1 + (travB verts triIdx l' ray).2 +
                        (travB verts triIdx r' (travB verts triIdx l' ray).1).2) := by
                    omega
                  rw [hsteps]
                · have htrav : travB verts triIdx (.node lmin lmax rmin rmax l' r') ray =
                      ((travB verts triIdx l' ray).1, 1 + (travB verts triIdx l' ray).2) := by
                    rw [travB, if_neg hgt, if_neg hm, if_neg hn]
                  simp only [htrav]
                  have hfuel : 1 + (travB verts triIdx l' ray).2 + f =
                      ((travB verts triIdx l' ray).2 + f) + 1 := by omega
                  rw [hfuel, IntersectA, if_neg hl]
                  simp only [altChildDist_eq]
                  rw [hb1, hb2, hb3, hb4, if_neg hgt, if_neg hm, if_neg hn]
                  rw [ihl F _ hel st ray (steps + 1) f]
                  have hsteps : steps + 1 + (travB verts triIdx l' ray).2 =
                      steps + (1 + (travB verts triIdx l' ray).2) := by omega
                  rw [hsteps]

/-- `serWriteA` only writes inside `[p, p + btCount t)`. -/
theorem serWriteA_frame :
    ∀ (t : BTree) (alt : ℕ → BVHNodeAlt) (p k : ℕ),
      k < p ∨ p + btCount t ≤ k → serWriteA alt p t k = alt k := by
  intro t
  induction t with
  | leaf first count =>
    intro alt p k hk
    simp only [btCount] at hk
    have hne : k ≠ p := by omega
    rw [serWriteA]
    exact Function.update_noteq hne _ _
  | node lmin lmax rmin rmax l r ihl ihr =>
    intro alt p k hk
    simp only [btCount] at hk
    rw [serWriteA]
    rw [ihr _ _ _ (by omega)]
    rw [ihl _ _ _ (by omega)]
    exact Function.update_noteq (by omega) _ _

/-- `serWriteA` commutes with updates outside its region. -/
theorem serWriteA_update_comm :
    ∀ (t : BTree) (alt : ℕ → BVHNodeAlt) (p q : ℕ) (v : BVHNodeAlt),
      q < p ∨ p + btCount t ≤ q →
      serWriteA (Function.update alt q v) p t =
        Function.update (serWriteA alt p t) q v := by
  intro t
  induction t with
  | leaf first count =>
    intro alt p q v hq
    simp only [btCount] at hq
    have hne : p ≠ q := by omega
    rw [serWriteA, serWriteA, Function.update_noteq hne,
      Function.update_comm hne.symm]
  | node lmin lmax rmin rmax l r ihl ihr =>
    intro alt p q v hq
    simp only [btCount] at hq
    rw [serWriteA, serWriteA, Function.update_noteq (show p ≠ q by omega),
      Function.update_comm (show q ≠ p by omega),
      ihl _ _ _ _ (by omega), ihr _ _ _ _ (by omega)]

/-- Fuel monotonicity of the conversion machine. -/
theorem convertWA_fuel_mono (ns : ℕ → BVHNode) :
    ∀ fuel st alt p r, ConvertWA ns fuel st alt p = some r →
      ConvertWA ns (fuel + 1) st alt p = some r := by
  intro fuel
  induction fuel with
  | zero => intro st alt p r h; exact absurd h (by simp [ConvertWA])
  | succ f ih =>
    intro st alt p r h
    cases st with
    | nil => rw [ConvertWA] at h ⊢; exact h
    | cons hd st =>
      obtain ⟨patch, i⟩ := hd
      rw [ConvertWA] at h ⊢
      by_cases hl : (ns i).isLeaf
      · rw [if_pos hl] at h ⊢; exact ih _ _ _ _ h
      · rw [if_neg hl] at h ⊢; exact ih _ _ _ _ h

/-- Fuel monotonicity, `≤` form. -/
theorem convertWA_fuel_mono_le (ns : ℕ → BVHNode) {fuel fuel' : ℕ} (hle : fuel ≤ fuel') :
    ∀ st alt p r, ConvertWA ns fuel st alt p = some r →
      ConvertWA ns fuel' st alt p = some r := by
  induction hle with
  | refl => exact fun _ _ _ _ h => h
  | step _ ih => exact fun st alt p r h => convertWA_fuel_mono ns _ st alt p r (ih st alt p r h)

/-- The conversion machine, started on a work item for a node encoding the
tree `t`, performs exactly the writes `serWriteA` describes (after the
item's patch) and advances the allocation counter by `btCount t`. -/
theorem convertWA_tree (ns : ℕ → BVHNode) :
    ∀ (t : BTree) (F i : ℕ), extractW ns F i = some t →
    ∀ (st : List (Option ℕ × ℕ)) (patch : Option ℕ) (alt : ℕ → BVHNodeAlt) (p f : ℕ),
      ConvertWA ns (btCount t + f) ((patch, i) :: st) alt p =
      ConvertWA ns f st (serWriteA (applyPatch alt patch p) p t) (p + btCount t) := by
  intro t
  induction t with
  | leaf first count =>
    intro F i hx st patch alt p f
    cases F with
    | zero => exact absurd hx (by simp [extractW])
    | succ F =>
      rw [extractW] at hx
      by_cases hl : (ns i).isLeaf
      · rw [if_pos hl] at hx
        obtain ⟨h1, h2⟩ := BTree.leaf.inj (Option.some.inj hx)
        have hc : btCount (.leaf first count) + f = f + 1 := by
          simp only [btCount]; omega
        rw [hc, ConvertWA, if_pos hl, h1, h2]
        rw [show serWriteA (applyPatch alt patch p) p (.leaf first count) =
          Function.update (applyPatch alt patch p) p
            { applyPatch alt patch p p with triCount := count, firstTri := first } from rfl]
        rw [show p + btCount (.leaf first count) = p + 1 from rfl]
      · rw [if_neg hl] at hx
        cases hel : extractW ns F (ns i).leftFirst with
        | none => rw [hel] at hx; simp at hx
        | some l' =>
          cases her : extractW ns F ((ns i).leftFirst + 1) with
          | none => rw [hel, her] at hx; simp at hx
          | some r' => rw [hel, her] at hx; simp at hx
  | node lmin lmax rmin rmax l r ihl ihr =>
    intro F i hx st patch alt p f
    cases F with
    | zero => exact absurd hx (by simp [extractW])
    | succ F =>
      rw [extractW] at hx
      by_cases hl : (ns i).isLeaf
      · rw [if_pos hl] at hx; simp at hx
      · rw [if_neg hl] at hx
        cases hel : extractW ns F (ns i).leftFirst with
        | none => rw [hel] at hx; simp at hx
        | some l' =>
          cases her : extractW ns F ((ns i).leftFirst + 1) with
          | none => rw [hel, her] at hx; simp at hx
          | some r' =>
            rw [hel, her] at hx
            obtain ⟨hb1, hb2, hb3, hb4, hbl, hbr⟩ := BTree.node.inj (Option.some.inj hx)
            subst hbl hbr
            have hc : btCount (.node lmin lmax rmin rmax l' r') + f =
                (btCount l' + (btCount r' + f)) + 1 := by
              simp only [btCount]; omega
            rw [hc, ConvertWA, if_neg hl, hb1, hb2, hb3, hb4]
            rw [ihl F _ hel _ none _ (p + 1) (btCount r' + f)]
            rw [show applyPatch (Function.update (applyPatch alt patch p) p
              { applyPatch alt patch p p with
                lmin := lmin, left := p + 1, lmax := lmax,
                rmin := rmin, rmax := rmax }) none (p + 1) =
              Function.update (applyPatch alt patch p) p
              { applyPatch alt patch p p with
                lmin := lmin, left := p + 1, lmax := lmax,
                rmin := rmin, rmax := rmax } from rfl]
            rw [ihr F _ her st (some p) _ (p + 1 + btCount l') f]
            have hkey : applyPatch
                (serWriteA (Function.update (applyPatch alt patch p) p
                  { applyPatch alt patch p p with
                    lmin := lmin, left := p + 1, lmax := lmax,
                    rmin := rmin, rmax := rmax }) (p + 1) l')
                (some p) (p + 1 + btCount l') =
                serWriteA (Function.update (applyPatch alt patch p) p
                  { applyPatch alt patch p p with
                    lmin := lmin, left := p + 1, lmax := lmax,
                    right := p + 1 + btCount l', rmin := rmin, rmax := rmax })
                  (p + 1) l' := by
              rw [show applyPatch
                  (serWriteA (Function.update (applyPatch alt patch p) p
                    { applyPatch alt patch p p with
                      lmin := lmin, left := p + 1, lmax := lmax,
                      rmin := rmin, rmax := rmax }) (p + 1) l')
                  (some p) (p + 1 + btCount l') =
                Function.update
                  (serWriteA (Function.update (applyPatch alt patch p) p
                    { applyPatch alt patch p p with
                      lmin := lmin, left := p + 1, lmax := lmax,
                      rmin := rmin, rmax := rmax }) (p + 1) l') p
                  { serWriteA (Function.update (applyPatch alt patch p) p
                    { applyPatch alt patch p p with
                      lmin := lmin, left := p + 1, lmax := lmax,
                      rmin := rmin, rmax := rmax }) (p + 1) l' p with
                    right := p + 1 + btCount l' } from rfl]
              rw [serWriteA_frame l' _ (p + 1) p (Or.inl (Nat.lt_succ_self p))]
              rw [Function.update_same]
              rw [serWriteA_update_comm l' _ (p + 1) p _ (Or.inl (Nat.lt_succ_self p))]
              rw [Function.update_idem]
              rw [serWriteA_update_comm l' _ (p + 1) p _ (Or.inl (Nat.lt_succ_self p))]
            rw [hkey]
            rw [show serWriteA (applyPatch alt patch p) p (.node lmin lmax rmin rmax l' r') =
              serWriteA (serWriteA (Function.update (applyPatch alt patch p) p
                { applyPatch alt patch p p with
                  lmin := lmin, left := p + 1, lmax := lmax,
                  right := p + 1 + btCount l', rmin := rmin, rmax := rmax })
                (p + 1) l') (p + 1 + btCount l') r' from rfl]
            have hcnt : p + 1 + btCount l' + btCount r' =
                p + btCount (.node lmin lmax rmin rmax l' r') := by
              simp only [btCount]; omega
            rw [hcnt]

/-- Fuel monotonicity of `extractA`. -/
theorem extractA_mono (alt : ℕ → BVHNodeAlt) :
    ∀ fuel i t, extractA alt fuel i = some t → extractA alt (fuel + 1) i = some t := by
  intro fuel
  induction fuel with
  | zero => intro i t h; exact absurd h (by simp [extractA])
  | succ f ih =>
    intro i t h
    rw [extractA] at h ⊢
    by_cases hl : (alt i).isLeaf
    · rw [if_pos hl] at h ⊢; exact h
    · rw [if_neg hl] at h ⊢
      cases hel : extractA alt f (alt i).left with
      | none => rw [hel] at h; simp at h
      | some l' =>
        cases her : extractA alt f (alt i).right with
        | none => rw [hel, her] at h; simp at h
        | some r' =>
          rw [hel, her] at h
          rw [ih _ _ hel, ih _ _ her]
          exact h

/-- Fuel monotonicity of `extractA`, `≤` form. -/
theorem extractA_mono_le (alt : ℕ → BVHNodeAlt) {fuel fuel' : ℕ} (hle : fuel ≤ fuel') :
    ∀ i t, extractA alt fuel i = some t → extractA alt fuel' i = some t := by
  induction hle with
  | refl => exact fun _ _ h => h
  | step _ ih => exact fun i t h => extractA_mono alt _ i t (ih i t h)

/-- Trees extracted from a Wald pool have positive leaf counts. -/
theorem extractW_leavesPos (ns : ℕ → BVHNode) :
    ∀ F i t, extractW ns F i = some t → t.leavesPos = true := by
  intro F
  induction F with
  | zero => intro i t h; exact absurd h (by simp [extractW])
  | succ F ih =>
    intro i t h
    rw [extractW] at h
    by_cases hl : (ns i).isLeaf
    · rw [if_pos hl] at h
      cases Option.some.inj h
      simp only [BTree.leavesPos]
      exact hl
    · rw [if_neg hl] at h
      cases hel : extractW ns F (ns i).leftFirst with
      | none => rw [hel] at h; simp at h
      | some l' =>
        cases her : extractW ns F ((ns i).leftFirst + 1) with
        | none => rw [hel, her] at h; simp at h
        | some r' =>
          rw [hel, her] at h
          cases Option.some.inj h
          simp only [BTree.leavesPos, Bool.and_eq_true]
          exact ⟨ih _ _ hel, ih _ _ her⟩

/-- Reading back the serialized Aila-Laine pool recovers the tree: if `B`
agrees with `serWriteA alt p t` on the region `[p, p + btCount t)`, the
pre-write store had zeroed `triCount` fields there (the source `memset`s the
pool), and `t` has positive leaf counts, then extraction at `p` yields
`t`. -/
theorem extractA_ser :
    ∀ (t : BTree) (alt B : ℕ → BVHNodeAlt) (p : ℕ),
      t.leavesPos = true →
      (∀ k, k < btCount t → (alt (p + k)).triCount = 0) →
      (∀ k, k < btCount t → B (p + k) = serWriteA alt p t (p + k)) →
      extractA B (btCount t) p = some t := by
  intro t
  induction t with
  | leaf first count =>
    intro alt B p hlp hz hB
    have hBp : B p = { alt p with triCount := count, firstTri := first } := by
      have h0 := hB 0 (by simp [btCount])
      rw [Nat.add_zero] at h0
      rw [h0, serWriteA, Function.update_same]
    have hcount : 0 < count := of_decide_eq_true hlp
    rw [show btCount (.leaf first count) = 0 + 1 from rfl, extractA, hBp]
    rw [if_pos (show BVHNodeAlt.isLeaf _ = true from decide_eq_true hcount)]
  | node lmin lmax rmin rmax l r ihl ihr =>
    intro alt B p hlp hz hB
    simp only [BTree.leavesPos, Bool.and_eq_true] at hlp
    have hcnt : btCount (.node lmin lmax rmin rmax l r) =
        1 + btCount l + btCount r := rfl
    have hBp : B p = { alt p with
        lmin := lmin, left := p + 1, lmax := lmax,
        right := p + 1 + btCount l, rmin := rmin, rmax := rmax } := by
      have h0 := hB 0 (by simp [btCount])
      rw [Nat.add_zero] at h0
      rw [h0, serWriteA,
        serWriteA_frame r _ (p + 1 + btCount l) p (Or.inl (by omega)),
        serWriteA_frame l _ (p + 1) p (Or.inl (by omega)),
        Function.update_same]
    have hleft : extractA B (btCount l) (p + 1) = some l := by
      refine ihl (Function.update alt p { alt p with
        lmin := lmin, left := p + 1, lmax := lmax,
        right := p + 1 + btCount l, rmin := rmin, rmax := rmax }) B (p + 1) hlp.1 ?_ ?_
      · intro k hk
        rw [Function.update_noteq (show p + 1 + k ≠ p by omega)]
        have := hz (1 + k) (by omega)
        rw [show p + (1 + k) = p + 1 + k by omega] at this
        exact this
      · intro k hk
        have h1 := hB (1 + k) (by omega)
        rw [show p + (1 + k) = p + 1 + k by omega] at h1
        rw [h1, serWriteA,
          serWriteA_frame r _ (p + 1 + btCount l) (p + 1 + k) (Or.inl (by omega))]
    have hright : extractA B (btCount r) (p + 1 + btCount l) = some r := by
      refine ihr (serWriteA (Function.update alt p { alt p with
        lmin := lmin, left := p + 1, lmax := lmax,
        right := p + 1 + btCount l, rmin := rmin, rmax := rmax }) (p + 1) l)
        B (p + 1 + btCount l) hlp.2 ?_ ?_
      · intro k hk
        rw [serWriteA_frame l _ (p + 1) (p + 1 + btCount l + k) (Or.inr (by omega)),
          Function.update_noteq (show p + 1 + btCount l + k ≠ p by omega)]
        have := hz (1 + btCount l + k) (by omega)
        rw [show p + (1 + btCount l + k) = p + 1 + btCount l + k by omega] at this
        exact this
      · intro k hk
        have h1 := hB (1 + btCount l + k) (by omega)
        rw [show p + (1 + btCount l + k) = p + 1 + btCount l + k by omega] at h1
        rw [h1, serWriteA]
    have hnotleaf : (B p).isLeaf = false := by
      rw [hBp]
      have := hz 0 (by simp [btCount])
      rw [Nat.add_zero] at this
      simp only [BVHNodeAlt.isLeaf]
      rw [show ({ alt p with
        lmin := lmin, left := p + 1, lmax := lmax,
        right := p + 1 + btCount l, rmin := rmin, rmax := rmax } : BVHNodeAlt).triCount
        = (alt p).triCount from rfl, this]
      rfl
    rw [show btCount (.node lmin lmax rmin rmax l r) =
      (btCount l + btCount r) + 1 by simp [btCount]; omega]
    rw [extractA, if_neg (by rw [hnotleaf]; exact Bool.false_ne_true)]
    rw [show (B p).left = p + 1 by rw [hBp]]
    rw [show (B p).right = p + 1 + btCount l by rw [hBp]]
    rw [extractA_mono_le B (Nat.le_add_right _ _) _ _ hleft]
    rw [extractA_mono_le B (by omega : btCount r ≤ btCount l + btCount r) _ _ hright]
    rw [show (B p).lmin = lmin by rw [hBp]]
    rw [show (B p).lmax = lmax by rw [hBp]]
    rw [show (B p).rmin = rmin by rw [hBp]]
    rw [show (B p).rmax = rmax by rw [hBp]]

/-- `fabsq` is non-negative. -/
theorem fabsq_nonneg (x : ℚ) : 0 ≤ fabsq x := by
  rw [fabsq]
  split_ifs with h
  · linarith
  · linarith

/-- The canonical run of the conversion machine from the root. -/
theorem convertWA_run (ns : ℕ → BVHNode) (t : BTree) (F : ℕ)
    (hx : extractW ns F 0 = some t) :
    ConvertWA ns (btCount t + 1) [(none, 0)] (fun _ => default) 0 =
      some (serWriteA (fun _ => default) 0 t, btCount t) := by
  rw [convertWA_tree ns t F 0 hx [] none (fun _ => default) 0 1]
  rw [show (1 : ℕ) = 0 + 1 from rfl, ConvertWA]
  rw [show applyPatch (fun _ => default) none 0 = (fun _ => default) from rfl]
  rw [Nat.zero_add]

/-- **C2.**  For every Wald-layout BVH that encodes a tree (as every BVH
produced by `Build` does) and every ray: traversing the primary layout and
traversing the `Convert(WALD_32BYTE, AILA_LAINE)` result write the same hit
into the ray — the rays coincide, so in particular `hit.prim` is equal and
`hit.t` agrees within `1e-4` relative error (exactly, in the real-arithmetic
model). -/
theorem C2_wald_to_ailaLaine_same_hit (b : BVH) (t : BTree) (F fc f1 f2 : ℕ)
    (ray : Ray) (b' : BVH) (r1 r2 : Ray) (s1 s2 : ℕ)
    (hx : extractW b.bvhNode F 0 = some t)
    (hc : Convert_WaldToAilaLaine b fc = some b')
    (h1 : IntersectW b.verts b.triIdx b.bvhNode f1 [0] ray 0 = some (r1, s1))
    (h2 : IntersectA b'.verts b'.triIdx b'.altNode f2 [0] ray 0 = some (r2, s2)) :
    r1 = r2 ∧ r1.hit.prim = r2.hit.prim ∧
      fabsq (r1.hit.t - r2.hit.t) ≤ 1 / 10 ^ 4 * fabsq r1.hit.t := by
  have hW : IntersectW b.verts b.triIdx b.bvhNode ((travB b.verts b.triIdx t ray).2 + 1)
      [0] ray 0 =
      some ((travB b.verts b.triIdx t ray).1, 0 + (travB b.verts b.triIdx t ray).2) := by
    rw [intersectW_tree b.verts b.triIdx b.bvhNode t F 0 hx [] ray 0 1]
    rw [show (1 : ℕ) = 0 + 1 from rfl, IntersectW]
  have e1 : (r1, s1) =
      ((travB b.verts b.triIdx t ray).1, 0 + (travB b.verts b.triIdx t ray).2) := by
    have ha := intersectW_fuel_mono_le b.verts b.triIdx b.bvhNode
      (Nat.le_max_left f1 ((travB b.verts b.triIdx t ray).2 + 1)) [0] ray 0 _ h1
    have hb := intersectW_fuel_mono_le b.verts b.triIdx b.bvhNode
      (Nat.le_max_right f1 ((travB b.verts b.triIdx t ray).2 + 1)) [0] ray 0 _ hW
    exact Option.some.inj (ha.symm.trans hb)
  cases hcv : ConvertWA b.bvhNode fc [(none, 0)] (fun _ => default) 0 with
  | none =>
    rw [Convert_WaldToAilaLaine, hcv] at hc
    exact absurd hc (by simp)
  | some altp =>
    obtain ⟨alt, used⟩ := altp
    rw [Convert_WaldToAilaLaine, hcv] at hc
    have hb' : b' = { b with
        altNode := alt
        usedAltNodes := used
        rebuildable := false } := (Option.some.inj hc).symm
    have hrun := convertWA_run b.bvhNode t F hx
    have hcv' := convertWA_fuel_mono_le b.bvhNode
      (Nat.le_max_left fc (btCount t + 1)) _ _ _ _ hcv
    have hrun' := convertWA_fuel_mono_le b.bvhNode
      (Nat.le_max_right fc (btCount t + 1)) _ _ _ _ hrun
    have heq := Option.some.inj (hcv'.symm.trans hrun')
    have halt : alt = serWriteA (fun _ => default) 0 t := congrArg Prod.fst heq
    have hxa : extractA alt (btCount t) 0 = some t := by
      rw [halt]
      exact extractA_ser t (fun _ => default) (serWriteA (fun _ => default) 0 t) 0
        (extractW_leavesPos b.bvhNode F 0 t hx) (fun k _ => rfl) (fun k _ => rfl)
    have hv : b'.verts = b.verts := by rw [hb']
    have hti : b'.triIdx = b.triIdx := by rw [hb']
    have hba : b'.altNode = alt := by rw [hb']
    have hA : IntersectA b.verts b.triIdx alt ((travB b.verts b.triIdx t ray).2 + 1)
        [0] ray 0 =
        some ((travB b.verts b.triIdx t ray).1, 0 + (travB b.verts b.triIdx t ray).2) := by
      rw [intersectA_tree b.verts b.triIdx alt t (btCount t) 0 hxa [] ray 0 1]
      rw [show (1 : ℕ) = 0 + 1 from rfl, IntersectA]
    rw [hv, hti, hba] at h2
    have e2 : (r2, s2) =
        ((travB b.verts b.triIdx t ray).1, 0 + (travB b.verts b.triIdx t ray).2) := by
      have ha := intersectA_fuel_mono_le b.verts b.triIdx alt
        (Nat.le_max_left f2 ((travB b.verts b.triIdx t ray).2 + 1)) [0] ray 0 _ h2
      have hb := intersectA_fuel_mono_le b.verts b.triIdx alt
        (Nat.le_max_right f2 ((travB b.verts b.triIdx t ray).2 + 1)) [0] ray 0 _ hA
      exact Option.some.inj (ha.symm.trans hb)
    have hr12 : r1 = r2 :=
      (congrArg Prod.fst e1).trans (congrArg Prod.fst e2).symm
    refine ⟨hr12, by rw [hr12], ?_⟩
    rw [hr12, sub_self]
    rw [show fabsq 0 = 0 from by rw [fabsq, if_neg (lt_irrefl 0)]]
    exact mul_nonneg (by norm_num) (fabsq_nonneg _)

/-- **C2 witness**: the equivalence theorem applied to the concrete
single-leaf BVH `c2bvh`, its conversion `c2bvhAlt`, and the ray `c6ray`,
which hits primitive 0 at `t = 1` in both layouts. -/
theorem C2_wald_to_ailaLaine_same_hit_witness :
    fabsq ((1 : ℚ) - 1) ≤ 1 / 10 ^ 4 * fabsq 1 := by
  have h := C2_wald_to_ailaLaine_same_hit c2bvh (.leaf 0 1) 1 2 2 2 c6ray c2bvhAlt
    ({ c6ray with hit := ⟨1, 1/4, 1/4, 0⟩ }) ({ c6ray with hit := ⟨1, 1/4, 1/4, 0⟩ }) 1 1
    (by decide) rfl (by decide) (by decide)
  exact h.2.2

/-- The allocation counter of `serWriteW` depends only on the tree. -/
theorem serWriteW_counter :
    ∀ (t : NTree) (ns : ℕ → BVHNode) (d c : ℕ),
      (serWriteW ns d c t).2 = c + ntAlloc t := by
  intro t
  induction t with
  | leaf bmin bmax first count => intro ns d c; simp [serWriteW, ntAlloc]
  | node bmin bmax l r ihl ihr =>
    intro ns d c
    rw [serWriteW]
    rw [ihr, ihl]
    simp only [ntAlloc]
    omega

/-- `serWriteW` only writes slot `dst` and the slots `[c, c + ntAlloc t)`. -/
theorem serWriteW_frame :
    ∀ (t : NTree) (ns : ℕ → BVHNode) (d c k : ℕ),
      k ≠ d → (k < c ∨ c + ntAlloc t ≤ k) → (serWriteW ns d c t).1 k = ns k := by
  intro t
  induction t with
  | leaf bmin bmax first count =>
    intro ns d c k hkd _
    rw [serWriteW]
    exact Function.update_noteq hkd _ _
  | node bmin bmax l r ihl ihr =>
    intro ns d c k hkd hk
    simp only [ntAlloc] at hk
    rw [serWriteW]
    rw [ihr _ _ _ _ (by omega) (by rw [serWriteW_counter]; omega)]
    rw [ihl _ _ _ _ (by omega) (by omega)]
    exact Function.update_noteq hkd _ _

/-- `serWriteW` commutes with updates outside its region. -/
theorem serWriteW_update_comm :
    ∀ (t : NTree) (ns : ℕ → BVHNode) (d c q : ℕ) (v : BVHNode),
      q ≠ d → (q < c ∨ c + ntAlloc t ≤ q) →
      (serWriteW (Function.update ns q v) d c t).1 =
        Function.update (serWriteW ns d c t).1 q v := by
  intro t
  induction t with
  | leaf bmin bmax first count =>
    intro ns d c q v hqd _
    rw [serWriteW, serWriteW, Function.update_noteq hqd.symm,
      Function.update_comm hqd]
  | node bmin bmax l r ihl ihr =>
    intro ns d c q v hqd hq
    simp only [ntAlloc] at hq
    rw [serWriteW, serWriteW, Function.update_noteq hqd.symm,
      Function.update_comm hqd]
    rw [ihl _ _ _ _ _ (by omega) (by omega)]
    rw [serWriteW_counter, serWriteW_counter]
    rw [ihr _ _ _ _ _ (by omega) (by omega)]

/-- Fuel monotonicity of the `VERBOSE → WALD_32BYTE` machine. -/
theorem convertVW_fuel_mono (V : ℕ → BVHNodeVerbose) :
    ∀ fuel st ns np r, ConvertVW V fuel st ns np = some r →
      ConvertVW V (fuel + 1) st ns np = some r := by
  intro fuel
  induction fuel with
  | zero => intro st ns np r h; exact absurd h (by simp [ConvertVW])
  | succ f ih =>
    intro st ns np r h
    cases st with
    | nil => rw [ConvertVW] at h ⊢; exact h
    | cons hd st =>
      obtain ⟨src, dst⟩ := hd
      rw [ConvertVW] at h ⊢
      by_cases hl : (V src).isLeaf
      · rw [if_pos hl] at h ⊢; exact ih _ _ _ _ h
      · rw [if_neg hl] at h ⊢; exact ih _ _ _ _ h

/-- Fuel monotonicity, `≤` form. -/
theorem convertVW_fuel_mono_le (V : ℕ → BVHNodeVerbose) {fuel fuel' : ℕ} (hle : fuel ≤ fuel') :
    ∀ st ns np r, ConvertVW V fuel st ns np = some r →
      ConvertVW V fuel' st ns np = some r := by
  induction hle with
  | refl => exact fun _ _ _ _ h => h
  | step _ ih => exact fun st ns np r h => convertVW_fuel_mono V _ st ns np r (ih st ns np r h)

/-- The `VERBOSE → WALD_32BYTE` machine, started on a work item for a node
encoding the tree `t`, performs exactly the writes `serWriteW` describes
and leaves the counter at `serWriteW`'s counter. -/
theorem convertVW_tree (V : ℕ → BVHNodeVerbose) :
    ∀ (t : NTree) (F s : ℕ), extractV V F s = some t →
    ∀ (st : List (ℕ × ℕ)) (ns : ℕ → BVHNode) (d c f : ℕ),
      ConvertVW V (ntCount t + f) ((s, d) :: st) ns c =
      ConvertVW V f st (serWriteW ns d c t).1 (serWriteW ns d c t).2 := by
  intro t
  induction t with
  | leaf bmin bmax first count =>
    intro F s hx st ns d c f
    cases F with
    | zero => exact absurd hx (by simp [extractV])
    | succ F =>
      rw [extractV] at hx
      by_cases hl : (V s).isLeaf
      · rw [if_pos hl] at hx
        obtain ⟨hb1, hb2, h1, h2⟩ := NTree.leaf.inj (Option.some.inj hx)
        have hc : ntCount (.leaf bmin bmax first count) + f = f + 1 := by
          simp only [ntCount]; omega
        rw [hc, ConvertVW, if_pos hl, hb1, hb2, h1, h2]
        rw [show serWriteW ns d c (.leaf bmin bmax first count) =
          (Function.update ns d { ns d with
            aabbMin := bmin
            aabbMax := bmax
            triCount := count
            leftFirst := first }, c) from rfl]
      · rw [if_neg hl] at hx
        cases hel : extractV V F (V s).left with
        | none => rw [hel] at hx; simp at hx
        | some l' =>
          cases her : extractV V F (V s).right with
          | none => rw [hel, her] at hx; simp at hx
          | some r' => rw [hel, her] at hx; simp at hx
  | node bmin bmax l r ihl ihr =>
    intro F s hx st ns d c f
    cases F with
    | zero => exact absurd hx (by simp [extractV])
    | succ F =>
      rw [extractV] at hx
      by_cases hl : (V s).isLeaf
      · rw [if_pos hl] at hx; simp at hx
      · rw [if_neg hl] at hx
        cases hel : extractV V F (V s).left with
        | none => rw [hel] at hx; simp at hx
        | some l' =>
          cases her : extractV V F (V s).right with
          | none => rw [hel, her] at hx; simp at hx
          | some r' =>
            rw [hel, her] at hx
            obtain ⟨hb1, hb2, hbl, hbr⟩ := NTree.node.inj (Option.some.inj hx)
            subst hbl hbr
            have hc : ntCount (.node bmin bmax l' r') + f =
                (ntCount l' + (ntCount r' + f)) + 1 := by
              simp only [ntCount]; omega
            rw [hc, ConvertVW, if_neg hl, hb1, hb2]
            rw [ihl F _ hel _ _ c (c + 2) (ntCount r' + f)]
            rw [ihr F _ her st _ (c + 1) _ f]
            rw [show serWriteW ns d c (.node bmin bmax l' r') =
              serWriteW (serWriteW (Function.update ns d { ns d with
                aabbMin := bmin
                aabbMax := bmax
                leftFirst := c }) c (c + 2) l').1 (c + 1)
                (serWriteW (Function.update ns d { ns d with
                  aabbMin := bmin
                  aabbMax := bmax
                  leftFirst := c }) c (c + 2) l').2 r' from rfl]

/-- `wvMatch` depends only on the value at the slot. -/
theorem wvMatch_congr (ns : ℕ → BVHNode) {V V' : ℕ → BVHNodeVerbose} {j : ℕ}
    (h : V' j = V j) : wvMatch ns V j → wvMatch ns V' j := by
  unfold wvMatch
  rw [h]
  exact id

/-- Pointwise evolution (`unchanged or matching`) composes. -/
theorem wvRel_trans (ns : ℕ → BVHNode) {V V1 V2 : ℕ → BVHNodeVerbose}
    (h21 : ∀ j, V2 j = V1 j ∨ wvMatch ns V2 j)
    (h10 : ∀ j, V1 j = V j ∨ wvMatch ns V1 j) :
    ∀ j, V2 j = V j ∨ wvMatch ns V2 j := by
  intro j
  rcases h21 j with h2 | h2
  · rcases h10 j with h1 | h1
    · exact Or.inl (h2.trans h1)
    · exact Or.inr (wvMatch_congr ns h2 h1)
  · exact Or.inr h2

/-- Matching at a slot survives `unchanged or matching` evolution. -/
theorem wvMatch_preserved (ns : ℕ → BVHNode) {V V' : ℕ → BVHNodeVerbose} {j : ℕ}
    (hrel : ∀ k, V' k = V k ∨ wvMatch ns V' k) (h : wvMatch ns V j) :
    wvMatch ns V' j := by
  rcases hrel j with he | hm
  · exact wvMatch_congr ns he h
  · exact hm

/-- `SubMatch` survives `unchanged or matching` evolution. -/
theorem SubMatch_stable (ns : ℕ → BVHNode) {V V' : ℕ → BVHNodeVerbose}
    (hrel : ∀ k, V' k = V k ∨ wvMatch ns V' k) :
    ∀ F i, SubMatch ns V F i → SubMatch ns V' F i := by
  intro F
  induction F with
  | zero => intro i _; trivial
  | succ F ih =>
    intro i hs
    obtain ⟨hm, hch⟩ := hs
    exact ⟨wvMatch_preserved ns hrel hm,
      fun hnl => ⟨ih _ (hch hnl).1, ih _ (hch hnl).2⟩⟩

/-- The `WALD_32BYTE → VERBOSE` machine, started on a work item for a node
encoding a tree, leaves every slot unchanged or faithfully copied, and
faithfully copies the whole subtree. -/
theorem convertWV_tree (ns : ℕ → BVHNode) :
    ∀ (t : NTree) (F i : ℕ), extractWN ns F i = some t →
    ∀ (st : List (ℕ × ℕ)) (V : ℕ → BVHNodeVerbose) (par f : ℕ),
      ∃ V', ConvertWV ns (ntCount t + f) ((par, i) :: st) V =
          ConvertWV ns f st V' ∧
        (∀ j, V' j = V j ∨ wvMatch ns V' j) ∧
        SubMatch ns V' F i := by
  intro t
  induction t with
  | leaf bmin bmax first count =>
    intro F i hx st V par f
    cases F with
    | zero => exact absurd hx (by simp [extractWN])
    | succ F =>
      rw [extractWN] at hx
      by_cases hl : (ns i).isLeaf
      · refine ⟨Function.update V i { V i with
          aabbMin := (ns i).aabbMin
          aabbMax := (ns i).aabbMax
          triCount := (ns i).triCount
          parent := par
          firstTri := (ns i).leftFirst }, ?_, ?_, ?_⟩
        · have hc : ntCount (.leaf bmin bmax first count) + f = f + 1 := by
            simp only [ntCount]; omega
          rw [hc, ConvertWV, if_pos hl]
        · intro j
          by_cases hj : j = i
          · subst hj
            refine Or.inr ?_
            rw [wvMatch, Function.update_same]
            exact ⟨rfl, rfl, rfl, by rw [if_pos hl]⟩
          · exact Or.inl (Function.update_noteq hj _ _)
        · refine ⟨?_, fun hnl => absurd hl hnl⟩
          rw [wvMatch, Function.update_same]
          exact ⟨rfl, rfl, rfl, by rw [if_pos hl]⟩
      · rw [if_neg hl] at hx
        cases hel : extractWN ns F (ns i).leftFirst with
        | none => rw [hel] at hx; simp at hx
        | some l' =>
          cases her : extractWN ns F ((ns i).leftFirst + 1) with
          | none => rw [hel, her] at hx; simp at hx
          | some r' => rw [hel, her] at hx; simp at hx
  | node bmin bmax l r ihl ihr =>
    intro F i hx st V par f
    cases F with
    | zero => exact absurd hx (by simp [extractWN])
    | succ F =>
      rw [extractWN] at hx
      by_cases hl : (ns i).isLeaf
      · rw [if_pos hl] at hx; simp at hx
      · rw [if_neg hl] at hx
        cases hel : extractWN ns F (ns i).leftFirst with
        | none => rw [hel] at hx; simp at hx
        | some l' =>
          cases her : extractWN ns F ((ns i).leftFirst + 1) with
          | none => rw [hel, her] at hx; simp at hx
          | some r' =>
            rw [hel, her] at hx
            obtain ⟨hb1, hb2, hbl, hbr⟩ := NTree.node.inj (Option.some.inj hx)
            subst hbl hbr
            have hrel1 : ∀ j, (Function.update V i { V i with
                aabbMin := (ns i).aabbMin
                aabbMax := (ns i).aabbMax
                triCount := (ns i).triCount
                parent := par
                left := (ns i).leftFirst
                right := (ns i).leftFirst + 1 }) j = V j ∨
                wvMatch ns (Function.update V i { V i with
                  aabbMin := (ns i).aabbMin
                  aabbMax := (ns i).aabbMax
                  triCount := (ns i).triCount
                  parent := par
                  left := (ns i).leftFirst
                  right := (ns i).leftFirst + 1 }) j := by
              intro j
              by_cases hj : j = i
              · subst hj
                refine Or.inr ?_
                rw [wvMatch, Function.update_same]
                exact ⟨rfl, rfl, rfl, by rw [if_neg hl]; exact ⟨rfl, rfl⟩⟩
              · exact Or.inl (Function.update_noteq hj _ _)
            have hm1 : wvMatch ns (Function.update V i { V i with
                aabbMin := (ns i).aabbMin
                aabbMax := (ns i).aabbMax
                triCount := (ns i).triCount
                parent := par
                left := (ns i).leftFirst
                right := (ns i).leftFirst + 1 }) i := by
              rw [wvMatch, Function.update_same]
              exact ⟨rfl, rfl, rfl, by rw [if_neg hl]; exact ⟨rfl, rfl⟩⟩
            obtain ⟨V2, he2, hrel2, hsub2⟩ := ihl F _ hel
              ((i, (ns i).leftFirst + 1) :: st)
              (Function.update V i { V i with
                aabbMin := (ns i).aabbMin
                aabbMax := (ns i).aabbMax
                triCount := (ns i).triCount
                parent := par
                left := (ns i).leftFirst
                right := (ns i).leftFirst + 1 }) i (ntCount r' + f)
            obtain ⟨V3, he3, hrel3, hsub3⟩ := ihr F _ her st V2 i f
            refine ⟨V3, ?_, ?_, ?_⟩
            · have hc : ntCount (.node bmin bmax l' r') + f =
                  (ntCount l' + (ntCount r' + f)) + 1 := by
                simp only [ntCount]; omega
              rw [hc, ConvertWV, if_neg hl]
              rw [he2, he3]
            · exact wvRel_trans ns hrel3 (wvRel_trans ns hrel2 hrel1)
            · refine ⟨wvMatch_preserved ns hrel3 (wvMatch_preserved ns hrel2 hm1),
                fun _ => ⟨SubMatch_stable ns hrel3 F _ hsub2, hsub3⟩⟩

/-- Fuel monotonicity of the `WALD_32BYTE → VERBOSE` machine. -/
theorem convertWV_fuel_mono (ns : ℕ → BVHNode) :
    ∀ fuel st V r, ConvertWV ns fuel st V = some r →
      ConvertWV ns (fuel + 1) st V = some r := by
  intro fuel
  induction fuel with
  | zero => intro st V r h; exact absurd h (by simp [ConvertWV])
  | succ f ih =>
    intro st V r h
    cases st with
    | nil => rw [ConvertWV] at h ⊢; exact h
    | cons hd st =>
      obtain ⟨par, i⟩ := hd
      rw [ConvertWV] at h ⊢
      by_cases hl : (ns i).isLeaf
      · rw [if_pos hl] at h ⊢; exact ih _ _ _ h
      · rw [if_neg hl] at h ⊢; exact ih _ _ _ h

/-- Fuel monotonicity, `≤` form. -/
theorem convertWV_fuel_mono_le (ns : ℕ → BVHNode) {fuel fuel' : ℕ} (hle : fuel ≤ fuel') :
    ∀ st V r, ConvertWV ns fuel st V = some r → ConvertWV ns fuel' st V = some r := by
  induction hle with
  | refl => exact fun _ _ _ h => h
  | step _ ih => exact fun st V r h => convertWV_fuel_mono ns _ st V r (ih st V r h)

/-- Extraction from a faithfully copied verbose pool recovers the Wald
tree. -/
theorem extractV_SubMatch (ns : ℕ → BVHNode) (V : ℕ → BVHNodeVerbose) :
    ∀ F i t, extractWN ns F i = some t → SubMatch ns V F i →
      extractV V F i = some t := by
  intro F
  induction F with
  | zero => intro i t h; exact absurd h (by simp [extractWN])
  | succ F ih =>
    intro i t hx hs
    obtain ⟨⟨hm1, hm2, hm3, hm4⟩, hch⟩ := hs
    rw [extractWN] at hx
    rw [extractV]
    by_cases hl : (ns i).isLeaf
    · rw [if_pos hl] at hx
      cases Option.some.inj hx
      rw [if_pos (show (V i).isLeaf = true by
        rw [BVHNodeVerbose.isLeaf, hm3]; exact hl)]
      rw [if_pos hl] at hm4
      rw [hm1, hm2, hm3, hm4]
    · rw [if_neg hl] at hx
      rw [if_neg hl] at hm4
      cases hel : extractWN ns F (ns i).leftFirst with
      | none => rw [hel] at hx; simp at hx
      | some l' =>
        cases her : extractWN ns F ((ns i).leftFirst + 1) with
        | none => rw [hel, her] at hx; simp at hx
        | some r' =>
          rw [hel, her] at hx
          cases Option.some.inj hx
          rw [if_neg (show ¬ (V i).isLeaf = true by
            rw [BVHNodeVerbose.isLeaf, hm3]; exact hl)]
          rw [hm4.1, hm4.2]
          rw [ih _ _ hel (hch hl).1, ih _ _ her (hch hl).2]
          rw [hm1, hm2]

/-- Fuel monotonicity of `extractWN`. -/
theorem extractWN_mono (ns : ℕ → BVHNode) :
    ∀ fuel i t, extractWN ns fuel i = some t → extractWN ns (fuel + 1) i = some t := by
  intro fuel
  induction fuel with
  | zero => intro i t h; exact absurd h (by simp [extractWN])
  | succ f ih =>
    intro i t h
    rw [extractWN] at h ⊢
    by_cases hl : (ns i).isLeaf
    · rw [if_pos hl] at h ⊢; exact h
    · rw [if_neg hl] at h ⊢
      cases hel : extractWN ns f (ns i).leftFirst with
      | none => rw [hel] at h; simp at h
      | some l' =>
        cases her : extractWN ns f ((ns i).leftFirst + 1) with
        | none => rw [hel, her] at h; simp at h
        | some r' =>
          rw [hel, her] at h
          rw [ih _ _ hel, ih _ _ her]
          exact h

/-- Fuel monotonicity of `extractWN`, `≤` form. -/
theorem extractWN_mono_le (ns : ℕ → BVHNode) {fuel fuel' : ℕ} (hle : fuel ≤ fuel') :
    ∀ i t, extractWN ns fuel i = some t → extractWN ns fuel' i = some t := by
  induction hle with
  | refl => exact fun _ _ h => h
  | step _ ih => exact fun i t h => extractWN_mono ns _ i t (ih i t h)

/-- Trees extracted from a Wald pool have positive leaf counts. -/
theorem extractWN_leavesPos (ns : ℕ → BVHNode) :
    ∀ F i t, extractWN ns F i = some t → t.leavesPos = true := by
  intro F
  induction F with
  | zero => intro i t h; exact absurd h (by simp [extractWN])
  | succ F ih =>
    intro i t h
    rw [extractWN] at h
    by_cases hl : (ns i).isLeaf
    · rw [if_pos hl] at h
      cases Option.some.inj h
      simp only [NTree.leavesPos]
      exact hl
    · rw [if_neg hl] at h
      cases hel : extractWN ns F (ns i).leftFirst with
      | none => rw [hel] at h; simp at h
      | some l' =>
        cases her : extractWN ns F ((ns i).leftFirst + 1) with
        | none => rw [hel, her] at h; simp at h
        | some r' =>
          rw [hel, her] at h
          cases Option.some.inj h
          simp only [NTree.leavesPos, Bool.and_eq_true]
          exact ⟨ih _ _ hel, ih _ _ her⟩

/-- Reading back the pool written by the `VERBOSE → WALD_32BYTE` conversion
recovers the tree, provided the pre-write store had zeroed `triCount`
fields in the written region (the source `memset`s the pool) and the tree
has positive leaf counts. -/
theorem extractWN_serW :
    ∀ (t : NTree) (ns B : ℕ → BVHNode) (d c : ℕ),
      t.leavesPos = true → d < c →
      (∀ k, (k = d ∨ (c ≤ k ∧ k < c + ntAlloc t)) → (ns k).triCount = 0) →
      (∀ k, (k = d ∨ (c ≤ k ∧ k < c + ntAlloc t)) → B k = (serWriteW ns d c t).1 k) →
      extractWN B (ntCount t) d = some t := by
  intro t
  induction t with
  | leaf bmin bmax first count =>
    intro ns B d c hlp _ _ hB
    have hBd : B d = { ns d with
        aabbMin := bmin
        aabbMax := bmax
        triCount := count
        leftFirst := first } := by
      rw [hB d (Or.inl rfl)]
      exact Function.update_same d _ ns
    have hcount : 0 < count := of_decide_eq_true hlp
    rw [show ntCount (.leaf bmin bmax first count) = 0 + 1 from rfl, extractWN, hBd]
    rw [if_pos (show BVHNode.isLeaf _ = true from decide_eq_true hcount)]
  | node bmin bmax l r ihl ihr =>
    intro ns B d c hlp hdc hz hB
    simp only [NTree.leavesPos, Bool.and_eq_true] at hlp
    have halloc : ntAlloc (.node bmin bmax l r) = 2 + ntAlloc l + ntAlloc r := rfl
    have hBd : B d = { ns d with
        aabbMin := bmin
        aabbMax := bmax
        leftFirst := c } := by
      rw [hB d (Or.inl rfl), serWriteW,
        serWriteW_frame r _ (c + 1) _ d (by omega)
          (by rw [serWriteW_counter]; omega),
        serWriteW_frame l _ c (c + 2) d (by omega) (by omega),
        Function.update_same]
    have hnl : (B d).isLeaf = false := by
      rw [hBd, BVHNode.isLeaf]
      rw [show ({ ns d with
        aabbMin := bmin
        aabbMax := bmax
        leftFirst := c } : BVHNode).triCount = (ns d).triCount from rfl]
      rw [hz d (Or.inl rfl)]
      rfl
    have hleft : extractWN B (ntCount l) c = some l := by
      refine ihl (Function.update ns d { ns d with
          aabbMin := bmin
          aabbMax := bmax
          leftFirst := c }) B c (c + 2) hlp.1 (by omega) ?_ ?_
      · intro k hk
        rw [Function.update_noteq (show k ≠ d by omega)]
        exact hz k (by omega)
      · intro k hk
        rw [hB k (by omega), serWriteW,
          serWriteW_frame r _ (c + 1) _ k (by omega)
            (by rw [serWriteW_counter]; omega)]
    have hright : extractWN B (ntCount r) (c + 1) = some r := by
      refine ihr (serWriteW (Function.update ns d { ns d with
          aabbMin := bmin
          aabbMax := bmax
          leftFirst := c }) c (c + 2) l).1 B (c + 1) (c + 2 + ntAlloc l)
        hlp.2 (by omega) ?_ ?_
      · intro k hk
        rw [serWriteW_frame l _ c (c + 2) k (by omega) (by omega),
          Function.update_noteq (show k ≠ d by omega)]
        exact hz k (by omega)
      · intro k hk
        rw [hB k (by omega), serWriteW, serWriteW_counter]
    rw [show ntCount (.node bmin bmax l r) = (ntCount l + ntCount r) + 1 by
      simp only [ntCount]; omega]
    rw [extractWN, if_neg (by rw [hnl]; exact Bool.false_ne_true)]
    rw [show (B d).leftFirst = c by rw [hBd]]
    rw [extractWN_mono_le B (Nat.le_add_right _ _) _ _ hleft]
    rw [extractWN_mono_le B (by omega : ntCount r ≤ ntCount l + ntCount r) _ _ hright]
    rw [show (B d).aabbMin = bmin by rw [hBd]]
    rw [show (B d).aabbMax = bmax by rw [hBd]]

/-- **C8.** `Convert(WALD_32BYTE, VERBOSE)` followed by
`Convert(VERBOSE, WALD_32BYTE)` is the identity on the tree encoded by the
primary layout: for every BVH whose primary node pool encodes a tree `t`
from slot 0 (as `Build` outputs do), whenever both conversions succeed, the
resulting primary pool encodes exactly the same tree `t` — every node's
`aabbMin`/`aabbMax` and every leaf's `triCount` and first-primitive slot
are unchanged. -/
theorem C8_convert_roundtrip_identity
    (b : BVH) (t : NTree) (F fv fw : ℕ) (b1 b2 : BVH)
    (hx : extractWN b.bvhNode F 0 = some t)
    (h1 : Convert_WaldToVerbose b fv = some b1)
    (h2 : Convert_VerboseToWald b1 fw = some b2) :
    extractWN b2.bvhNode (ntCount t) 0 = some t := by
  rw [Convert_WaldToVerbose] at h1
  cases hV : ConvertWV b.bvhNode fv [(4294967295, 0)]
      (Function.update (fun _ => default) 0
        { (default : BVHNodeVerbose) with parent := 4294967295 }) with
  | none => rw [hV] at h1; exact Option.noConfusion h1
  | some V =>
    rw [hV] at h1
    obtain ⟨V', hrunWV, hrel, hsub⟩ := convertWV_tree b.bvhNode t F 0 hx []
      (Function.update (fun _ => default) 0
        { (default : BVHNodeVerbose) with parent := 4294967295 }) 4294967295 1
    have hrunWV2 : ConvertWV b.bvhNode (ntCount t + 1) [(4294967295, 0)]
        (Function.update (fun _ => default) 0
          { (default : BVHNodeVerbose) with parent := 4294967295 }) = some V' := by
      rw [hrunWV, ConvertWV]
    have hmax1 := convertWV_fuel_mono_le b.bvhNode
      (le_max_left fv (ntCount t + 1)) _ _ _ hV
    have hmax2 := convertWV_fuel_mono_le b.bvhNode
      (le_max_right fv (ntCount t + 1)) _ _ _ hrunWV2
    have hVV : V = V' := Option.some.inj (hmax1.symm.trans hmax2)
    have hsubV : SubMatch b.bvhNode V F 0 := hVV.symm ▸ hsub
    have hextV : extractV b1.verbose F 0 = some t := by
      rw [← Option.some.inj h1]
      exact extractV_SubMatch b.bvhNode V F 0 t hx hsubV
    rw [Convert_VerboseToWald] at h2
    cases hW : ConvertVW b1.verbose fw [(0, 0)] (fun _ => default) 2 with
    | none => rw [hW] at h2; exact Option.noConfusion h2
    | some nsp =>
      rw [hW] at h2
      have hrunVW : ConvertVW b1.verbose (ntCount t + 1) [(0, 0)] (fun _ => default) 2 =
          some ((serWriteW (fun _ => default) 0 2 t).1,
            (serWriteW (fun _ => default) 0 2 t).2) := by
        rw [convertVW_tree b1.verbose t F 0 hextV [] (fun _ => default) 0 2 1, ConvertVW]
      have hmaxW1 := convertVW_fuel_mono_le b1.verbose
        (le_max_left fw (ntCount t + 1)) _ _ _ _ hW
      have hmaxW2 := convertVW_fuel_mono_le b1.verbose
        (le_max_right fw (ntCount t + 1)) _ _ _ _ hrunVW
      have hnsp : nsp = ((serWriteW (fun _ => default) 0 2 t).1,
          (serWriteW (fun _ => default) 0 2 t).2) :=
        Option.some.inj (hmaxW1.symm.trans hmaxW2)
      have hb2node : nsp.1 = b2.bvhNode := congrArg BVH.bvhNode (Option.some.inj h2)
      rw [← hb2node, hnsp]
      exact extractWN_serW t (fun _ => default) _ 0 2
        (extractWN_leavesPos b.bvhNode F 0 t hx) (by omega)
        (fun k _ => rfl) (fun k _ => rfl)

/-- Witness for C8 on the single-leaf BVH `c2bvh`: both conversions succeed
with fuel 2 and the round-trip reproduces the encoded tree exactly. -/
theorem C8_convert_roundtrip_identity_witness :
    Convert_WaldToVerbose c2bvh 2 = some c8bvhV ∧
    Convert_VerboseToWald c8bvhV 2 = some c8bvhW ∧
    extractWN c8bvhW.bvhNode 1 0 = some (NTree.leaf ⟨0, 0, 0⟩ ⟨1, 1, 0⟩ 0 1) :=
  ⟨rfl, rfl,
    C8_convert_roundtrip_identity c2bvh (NTree.leaf ⟨0, 0, 0⟩ ⟨1, 1, 0⟩ 0 1) 1 2 2
      c8bvhV c8bvhW rfl rfl rfl⟩

/-- Swapping two slots that both lie in a duplicate-free index list leaves
the mapped list unchanged up to permutation. -/
theorem swapStore_map_perm (ti : ℕ → ℕ) (a b : ℕ) (L : List ℕ) (hnd : L.Nodup)
    (ha : a ∈ L) (hb : b ∈ L) :
    (L.map (swapStore ti a b)).Perm (L.map ti) := by
  by_cases hab : a = b
  · subst hab
    have hs : swapStore ti a a = ti := by
      funext k
      rw [swapStore]
      rcases eq_or_ne k a with rfl | hk
      · rw [Function.update_same]
      · rw [Function.update_noteq hk, Function.update_noteq hk]
    rw [hs]
  · have h1 : L.Perm (a :: L.erase a) := List.perm_cons_erase ha
    have hb1 : b ∈ L.erase a := (List.mem_erase_of_ne (Ne.symm hab)).mpr hb
    have h2 : (L.erase a).Perm (b :: (L.erase a).erase b) := List.perm_cons_erase hb1
    have hLM : L.Perm (a :: b :: (L.erase a).erase b) := h1.trans (h2.cons a)
    have haM : a ∉ (L.erase a).erase b := fun h =>
      ((hnd.mem_erase_iff).mp (List.mem_of_mem_erase h)).1 rfl
    have hbM : b ∉ (L.erase a).erase b := fun h =>
      (((hnd.erase a).mem_erase_iff).mp h).1 rfl
    have hM : ((L.erase a).erase b).map (swapStore ti a b) =
        ((L.erase a).erase b).map ti := by
      refine List.map_congr_left (fun x hx => ?_)
      rw [swapStore, Function.update_noteq (by rintro rfl; exact hbM hx),
        Function.update_noteq (by rintro rfl; exact haM hx)]
    have hsa : swapStore ti a b a = ti b := by
      rw [swapStore, Function.update_noteq hab, Function.update_same]
    have hsb : swapStore ti a b b = ti a := by
      rw [swapStore, Function.update_same]
    have p2 := hLM.map (swapStore ti a b)
    rw [List.map_cons, List.map_cons, hM, hsa, hsb] at p2
    have p4 := hLM.map ti
    rw [List.map_cons, List.map_cons] at p4
    exact p2.trans ((List.Perm.swap (ti a) (ti b) _).trans p4.symm)

/-- The in-place partition loop: touches `triIdx` only inside the node's
range `[f, f+c)`, permutes the referenced primitive indices, and ends with
`src = j` inside the range (provided it starts with `src = f`,
`j = src + n` and `j ≤ f + c`). -/
theorem partLoop_spec (fr : ℕ → Fragment) (a : ℕ) (rpd nmin : ℚ) (bp f c : ℕ) :
    ∀ n ti src j, f ≤ src → j = src + n → j ≤ f + c →
      (∀ k, k < f ∨ f + c ≤ k →
        (partLoop fr a rpd nmin bp n (ti, src, j)).1 k = ti k) ∧
      ((List.range' f c).map (partLoop fr a rpd nmin bp n (ti, src, j)).1).Perm
        ((List.range' f c).map ti) ∧
      f ≤ (partLoop fr a rpd nmin bp n (ti, src, j)).2.1 ∧
      (partLoop fr a rpd nmin bp n (ti, src, j)).2.2 =
        (partLoop fr a rpd nmin bp n (ti, src, j)).2.1 ∧
      (partLoop fr a rpd nmin bp n (ti, src, j)).2.1 ≤ f + c := by
  intro n
  induction n with
  | zero =>
    intro ti src j hf hj hc'
    rw [partLoop]
    exact ⟨fun _ _ => rfl, List.Perm.refl _, hf, show j = src by omega,
      show src ≤ f + c by omega⟩
  | succ n ih =>
    intro ti src j hf hj hc'
    rw [partLoop, partStep]
    by_cases hbi : binIdx (((vcell (fr (ti src)).bmin a + vcell (fr (ti src)).bmax a)
        * (1/2) - nmin) * rpd) ≤ bp
    · rw [if_pos hbi]
      exact ih ti (src + 1) j (by omega) (by omega) hc'
    · rw [if_neg hbi]
      obtain ⟨hfr, hpm, h1, h2, h3⟩ :=
        ih (swapStore ti src (j - 1)) src (j - 1) hf (by omega) (by omega)
      have hsw : ∀ k, k < f ∨ f + c ≤ k → swapStore ti src (j - 1) k = ti k := by
        intro k hk
        rw [swapStore, Function.update_noteq (by omega), Function.update_noteq (by omega)]
      refine ⟨fun k hk => (hfr k hk).trans (hsw k hk), ?_, h1, h2, h3⟩
      refine hpm.trans (swapStore_map_perm ti src (j - 1) _ (List.nodup_range' ..) ?_ ?_)
      · exact List.mem_range'_1.mpr ⟨hf, by omega⟩
      · exact List.mem_range'_1.mpr ⟨by omega, by omega⟩

/-- The initialization loop sets `triIdx[i] = i` for every `i < primCount`. -/
theorem initTi_lt (t0 : ℕ → ℕ) : ∀ n k, k < n → initTi t0 n k = k := by
  intro n
  induction n with
  | zero => intro k hk; omega
  | succ n ih =>
    intro k hk
    rw [initTi]
    rcases eq_or_ne k n with rfl | hkn
    · rw [Function.update_same]
    · rw [Function.update_noteq hkn]
      exact ih k (by omega)

/-- Every tree has at least one node. -/
theorem ntCount_pos : ∀ t : NTree, 1 ≤ ntCount t := by
  intro t
  cases t with
  | leaf bmin bmax f c => exact le_refl 1
  | node bmin bmax l r => rw [ntCount]; omega

/-- A node left as a leaf extracts stably from any agreeing pool. -/
theorem leafExtractStable (ns : ℕ → BVHNode) (i np : ℕ) (hc : 0 < (ns i).triCount) :
    ExtractStable ns i np np
      (.leaf (ns i).aabbMin (ns i).aabbMax (ns i).leftFirst (ns i).triCount) := by
  intro B F0 hF0 hag
  cases F0 with
  | zero =>
    rw [show ntCount (NTree.leaf (ns i).aabbMin (ns i).aabbMax (ns i).leftFirst
      (ns i).triCount) = 1 from rfl] at hF0
    exact absurd hF0 (by omega)
  | succ F0 =>
    rw [extractWN, hag i (Or.inl rfl),
      if_pos (show (ns i).isLeaf = true from decide_eq_true hc)]

/-- Processing one work item of the subdivision machine to completion: the
machine eventually pops the rest of the work list in a state that differs
from the entry state only at the current node and in the fresh allocation
window, with the index array permuted inside the node's range; the
resulting subtree extracts stably and its leaves cover the node's range
exactly. -/
theorem buildM_run (fr : ℕ → Fragment) (md : Vec3) :
    ∀ fuel i st ns ti np bb r,
      BuildM fr md fuel (i :: st) ns ti np bb = some r →
      0 < (ns i).triCount → i < np →
      ∃ fuel' ns' ti' np' bb' t,
        fuel' < fuel ∧
        BuildM fr md fuel' st ns' ti' np' bb' = some r ∧
        np ≤ np' ∧
        (∀ k, k ≠ i → (k < np ∨ np' ≤ k) → ns' k = ns k) ∧
        (∀ k, k < (ns i).leftFirst ∨ (ns i).leftFirst + (ns i).triCount ≤ k →
          ti' k = ti k) ∧
        ((List.range' (ns i).leftFirst (ns i).triCount).map ti').Perm
          ((List.range' (ns i).leftFirst (ns i).triCount).map ti) ∧
        ExtractStable ns' i np np' t ∧
        ntSlots t = List.range' (ns i).leftFirst (ns i).triCount := by
  intro fuel
  induction fuel using Nat.strong_induction_on with
  | _ fuel ih =>
  intro i st ns ti np bb r h hc hi
  cases fuel with
  | zero => exact absurd h (by simp [BuildM])
  | succ F =>
  rw [BuildM] at h
  generalize hBst : nodeBest fr ti md bb (ns i) = Bst at h
  by_cases hA : Bst.cost ≥ SA (ns i).aabbMin (ns i).aabbMax * ((ns i).triCount : ℚ)
  · rw [if_pos hA] at h
    exact ⟨F, ns, ti, np, Bst,
      .leaf (ns i).aabbMin (ns i).aabbMax (ns i).leftFirst (ns i).triCount,
      by omega, h, le_refl np, fun _ _ _ => rfl, fun _ _ => rfl, List.Perm.refl _,
      leafExtractStable ns i np hc, rfl⟩
  · rw [if_neg hA] at h
    have hnp : nodePart fr ti (ns i) Bst =
        partLoop fr Bst.axis (vcell (nodeRpd (ns i)) Bst.axis)
          (vcell (ns i).aabbMin Bst.axis) Bst.pos (ns i).triCount
          (ti, (ns i).leftFirst, (ns i).leftFirst + (ns i).triCount) := rfl
    have hps := partLoop_spec fr Bst.axis (vcell (nodeRpd (ns i)) Bst.axis)
      (vcell (ns i).aabbMin Bst.axis) Bst.pos (ns i).leftFirst (ns i).triCount
      (ns i).triCount ti (ns i).leftFirst ((ns i).leftFirst + (ns i).triCount)
      (le_refl _) rfl (le_refl _)
    rw [← hnp] at hps
    obtain ⟨tifr, tipm, hsrc1, hjeq, hsrc2⟩ := hps
    by_cases hB : (nodePart fr ti (ns i) Bst).2.1 - (ns i).leftFirst = 0 ∨
        (ns i).triCount - ((nodePart fr ti (ns i) Bst).2.1 - (ns i).leftFirst) = 0
    · rw [if_pos hB] at h
      exact ⟨F, ns, (nodePart fr ti (ns i) Bst).1, np, Bst,
        .leaf (ns i).aabbMin (ns i).aabbMax (ns i).leftFirst (ns i).triCount,
        by omega, h, le_refl np, fun _ _ _ => rfl, tifr, tipm,
        leafExtractStable ns i np hc, rfl⟩
    · rw [if_neg hB] at h
      push_neg at hB
      set X : BVHNode := ⟨Bst.lMin, (ns i).leftFirst, Bst.lMax,
        (nodePart fr ti (ns i) Bst).2.1 - (ns i).leftFirst⟩ with hX
      set Y : BVHNode := ⟨Bst.rMin, (nodePart fr ti (ns i) Bst).2.2, Bst.rMax,
        (ns i).triCount - ((nodePart fr ti (ns i) Bst).2.1 - (ns i).leftFirst)⟩ with hY
      set Z : BVHNode := ⟨(ns i).aabbMin, np, (ns i).aabbMax, 0⟩ with hZ
      set NS3 : ℕ → BVHNode :=
        Function.update (Function.update (Function.update ns np X) (np + 1) Y) i Z
        with hN3
      have hNp : NS3 np = X := by
        rw [hN3, Function.update_noteq (show np ≠ i by omega),
          Function.update_noteq (show np ≠ np + 1 by omega), Function.update_same]
      have hXf : (NS3 np).leftFirst = (ns i).leftFirst := by rw [hNp, hX]
      have hXc : (NS3 np).triCount =
          (nodePart fr ti (ns i) Bst).2.1 - (ns i).leftFirst := by rw [hNp, hX]
      obtain ⟨f2, ns2, ti2, np2, bb2, tl, hlt2, h2, hle2, nsfr2, tifr2, tipm2, es2, slots2⟩ :=
        ih F (by omega) np ((np + 1) :: st) NS3 (nodePart fr ti (ns i) Bst).1 (np + 2)
          Bst r h (by rw [hXc]; omega) (by omega)
      rw [hXf, hXc] at tifr2 tipm2 slots2
      have hR2 : ns2 (np + 1) = Y := by
        rw [nsfr2 (np + 1) (by omega) (Or.inl (by omega)), hN3,
          Function.update_noteq (show np + 1 ≠ i by omega), Function.update_same]
      have hYf : (ns2 (np + 1)).leftFirst = (nodePart fr ti (ns i) Bst).2.2 := by
        rw [hR2, hY]
      have hYc : (ns2 (np + 1)).triCount =
          (ns i).triCount - ((nodePart fr ti (ns i) Bst).2.1 - (ns i).leftFirst) := by
        rw [hR2, hY]
      obtain ⟨f3, ns3, ti3, np3, bb3, tr, hlt3, h3, hle3, nsfr3, tifr3, tipm3, es3, slots3⟩ :=
        ih f2 (by omega) (np + 1) st ns2 ti2 np2 bb2 r h2 (by rw [hYc]; omega) (by omega)
      rw [hYf, hYc] at tifr3 tipm3 slots3
      have happ := List.range'_append (ns i).leftFirst
        ((nodePart fr ti (ns i) Bst).2.1 - (ns i).leftFirst)
        ((ns i).triCount - ((nodePart fr ti (ns i) Bst).2.1 - (ns i).leftFirst)) 1
      simp only [one_mul] at happ
      have hsplit : List.range' (ns i).leftFirst
            ((nodePart fr ti (ns i) Bst).2.1 - (ns i).leftFirst) ++
          List.range' ((ns i).leftFirst +
            ((nodePart fr ti (ns i) Bst).2.1 - (ns i).leftFirst))
            ((ns i).triCount - ((nodePart fr ti (ns i) Bst).2.1 - (ns i).leftFirst)) =
          List.range' (ns i).leftFirst (ns i).triCount := by
        rw [happ, show ((ns i).triCount -
            ((nodePart fr ti (ns i) Bst).2.1 - (ns i).leftFirst)) +
            ((nodePart fr ti (ns i) Bst).2.1 - (ns i).leftFirst) = (ns i).triCount
          by omega]
      refine ⟨f3, ns3, ti3, np3, bb3, .node (ns i).aabbMin (ns i).aabbMax tl tr,
        by omega, h3, by omega, ?_, ?_, ?_, ?_, ?_⟩
      · intro k hki hk
        rw [nsfr3 k (by omega) (by omega), nsfr2 k (by omega) (by omega), hN3,
          Function.update_noteq hki, Function.update_noteq (show k ≠ np + 1 by omega),
          Function.update_noteq (show k ≠ np by omega)]
      · intro k hk
        rw [tifr3 k (by omega), tifr2 k (by omega), tifr k hk]
      · have pmL : ((List.range' (ns i).leftFirst
              ((nodePart fr ti (ns i) Bst).2.1 - (ns i).leftFirst)).map ti3).Perm
            ((List.range' (ns i).leftFirst
              ((nodePart fr ti (ns i) Bst).2.1 - (ns i).leftFirst)).map
                (nodePart fr ti (ns i) Bst).1) := by
          have he : (List.range' (ns i).leftFirst
              ((nodePart fr ti (ns i) Bst).2.1 - (ns i).leftFirst)).map ti3 =
              (List.range' (ns i).leftFirst
                ((nodePart fr ti (ns i) Bst).2.1 - (ns i).leftFirst)).map ti2 := by
            refine List.map_congr_left (fun x hx => ?_)
            have hmx := List.mem_range'_1.mp hx
            exact tifr3 x (by omega)
          rw [he]
          exact tipm2
        have pmR : ((List.range' ((ns i).leftFirst +
              ((nodePart fr ti (ns i) Bst).2.1 - (ns i).leftFirst))
              ((ns i).triCount -
                ((nodePart fr ti (ns i) Bst).2.1 - (ns i).leftFirst))).map ti3).Perm
            ((List.range' ((ns i).leftFirst +
              ((nodePart fr ti (ns i) Bst).2.1 - (ns i).leftFirst))
              ((ns i).triCount -
                ((nodePart fr ti (ns i) Bst).2.1 - (ns i).leftFirst))).map
                  (nodePart fr ti (ns i) Bst).1) := by
          have he : (List.range' ((ns i).leftFirst +
              ((nodePart fr ti (ns i) Bst).2.1 - (ns i).leftFirst))
              ((ns i).triCount -
                ((nodePart fr ti (ns i) Bst).2.1 - (ns i).leftFirst))).map ti2 =
              (List.range' ((ns i).leftFirst +
                ((nodePart fr ti (ns i) Bst).2.1 - (ns i).leftFirst))
                ((ns i).triCount -
                  ((nodePart fr ti (ns i) Bst).2.1 - (ns i).leftFirst))).map
                    (nodePart fr ti (ns i) Bst).1 := by
            refine List.map_congr_left (fun x hx => ?_)
            have hmx := List.mem_range'_1.mp hx
            exact tifr2 x (by omega)
          have hstart : (ns i).leftFirst +
              ((nodePart fr ti (ns i) Bst).2.1 - (ns i).leftFirst) =
              (nodePart fr ti (ns i) Bst).2.2 := by omega
          rw [← he, hstart]
          exact tipm3
        have big := pmL.append pmR
        rw [← List.map_append, ← List.map_append, hsplit] at big
        have pmP := tipm
        exact big.trans pmP
      · intro B F0 hF0 hag
        cases F0 with
        | zero =>
          rw [show ntCount (NTree.node (ns i).aabbMin (ns i).aabbMax tl tr) =
            1 + ntCount tl + ntCount tr from rfl] at hF0
          exact absurd hF0 (by omega)
        | succ F0 =>
          rw [show ntCount (NTree.node (ns i).aabbMin (ns i).aabbMax tl tr) =
            1 + ntCount tl + ntCount tr from rfl] at hF0
          have hBi : B i = Z := by
            rw [hag i (Or.inl rfl), nsfr3 i (by omega) (Or.inl (by omega)),
              nsfr2 i (by omega) (Or.inl (by omega)), hN3, Function.update_same]
          have hl : extractWN B F0 np = some tl := by
            refine es2 B F0 (by omega) (fun k hk => ?_)
            rw [hag k (by omega)]
            exact nsfr3 k (by omega) (by omega)
          have hr : extractWN B F0 (np + 1) = some tr := by
            refine es3 B F0 (by omega) (fun k hk => ?_)
            exact hag k (by omega)
          rw [extractWN, hBi, hZ]
          rw [if_neg (show ¬((⟨(ns i).aabbMin, np, (ns i).aabbMax, 0⟩ : BVHNode).isLeaf
            = true) from fun hh => Bool.false_ne_true hh)]
          rw [show (⟨(ns i).aabbMin, np, (ns i).aabbMax, 0⟩ : BVHNode).leftFirst = np
            from rfl]
          rw [hl, hr]
      · rw [show ntSlots (NTree.node (ns i).aabbMin (ns i).aabbMax tl tr) =
          ntSlots tl ++ ntSlots tr from rfl, slots2, slots3,
          show (nodePart fr ti (ns i) Bst).2.2 = (ns i).leftFirst +
            ((nodePart fr ti (ns i) Bst).2.1 - (ns i).leftFirst) by omega]
        exact hsplit

/-- **C4.** After `Build(vertices, N)` with `N > 0`, the node pool encodes
a tree from slot 0 whose leaves reference, through `triIdx`, exactly the
primitive indices `{0, …, N-1}` with no duplicates (the mapped slot list is
a permutation of `range N`), and `idxCount = triCount = N`. -/
theorem C4_build_leaf_partition
    (b : BVH) (verts : ℕ → Vec3) (N fuel : ℕ) (b' : BVH)
    (hN : 0 < N)
    (hb : Build b verts N fuel = some b') :
    b'.idxCount = N ∧ b'.triCount = N ∧
    ∃ t, extractWN b'.bvhNode (ntCount t) 0 = some t ∧
      ((ntSlots t).map b'.triIdx).Perm (List.range N) := by
  rw [Build] at hb
  cases hrun : BuildM (initFr b.fragment verts N)
      (vscale (rootMax verts N - rootMin verts N) (1 / 10 ^ 20)) fuel [0]
      (Function.update b.bvhNode 0 ⟨rootMin verts N, 0, rootMax verts N, N⟩)
      (initTi b.triIdx N) 2
      ⟨q30, 0, 0, ⟨0, 0, 0⟩, ⟨0, 0, 0⟩, ⟨0, 0, 0⟩, ⟨0, 0, 0⟩⟩ with
  | none => rw [hrun] at hb; exact Option.noConfusion hb
  | some s =>
    rw [hrun] at hb
    have hb' := Option.some.inj hb
    obtain ⟨fuel2, ns2, ti2, np2, bb2, t, hlt, hdone, _, _, _, tipm, es, slots⟩ :=
      buildM_run (initFr b.fragment verts N)
        (vscale (rootMax verts N - rootMin verts N) (1 / 10 ^ 20)) fuel 0 []
        (Function.update b.bvhNode 0 ⟨rootMin verts N, 0, rootMax verts N, N⟩)
        (initTi b.triIdx N) 2
        ⟨q30, 0, 0, ⟨0, 0, 0⟩, ⟨0, 0, 0⟩, ⟨0, 0, 0⟩, ⟨0, 0, 0⟩⟩ s hrun
        (by rw [Function.update_same]; exact hN) (by omega)
    have hrf : (Function.update b.bvhNode 0
        (⟨rootMin verts N, 0, rootMax verts N, N⟩ : BVHNode) 0).leftFirst = 0 := by
      rw [Function.update_same]
    have hrc : (Function.update b.bvhNode 0
        (⟨rootMin verts N, 0, rootMax verts N, N⟩ : BVHNode) 0).triCount = N := by
      rw [Function.update_same]
    rw [hrf, hrc] at tipm slots
    cases fuel2 with
    | zero => exact absurd hdone (by simp [BuildM])
    | succ f2 =>
      rw [BuildM] at hdone
      have hsn : (ns2, ti2, np2) = s := Option.some.inj hdone
      have hbnode : s.1 = b'.bvhNode := congrArg BVH.bvhNode hb'
      have hbti : s.2.1 = b'.triIdx := congrArg BVH.triIdx hb'
      have hidx : N = b'.idxCount := congrArg BVH.idxCount hb'
      have htc : N = b'.triCount := congrArg BVH.triCount hb'
      refine ⟨hidx.symm, htc.symm, t, ?_, ?_⟩
      · rw [← hbnode, ← hsn]
        exact es ns2 (ntCount t) (le_refl _) (fun _ _ => rfl)
      · rw [slots, ← hbti, ← hsn]
        have hid : (List.range' 0 N).map (initTi b.triIdx N) = List.range' 0 N := by
          rw [List.map_congr_left (fun x hx => initTi_lt b.triIdx N x
            (by have := List.mem_range'_1.mp hx; omega))]
          exact List.map_id _
        rw [hid] at tipm
        rw [List.range_eq_range']
        exact tipm

/-- Witness for C4 on a one-triangle mesh: the build succeeds with fuel 2
and the leaf indices are exactly `{0}`. -/
theorem C4_build_leaf_partition_witness :
    Build c2bvh c1verts 1 2 = some c4built ∧
    c4built.idxCount = 1 ∧ c4built.triCount = 1 ∧
    ∃ t, extractWN c4built.bvhNode (ntCount t) 0 = some t ∧
      ((ntSlots t).map c4built.triIdx).Perm (List.range 1) :=
  ⟨rfl, (C4_build_leaf_partition c2bvh c1verts 1 2 c4built (by decide) rfl).1,
    (C4_build_leaf_partition c2bvh c1verts 1 2 c4built (by decide) rfl).2.1,
    (C4_build_leaf_partition c2bvh c1verts 1 2 c4built (by decide) rfl).2.2⟩

/-- On the huge-coordinate mesh, `Build` splits the root even though the
split search accepted no candidate (`splitCost` kept its `1e30` sentinel,
below the node cost of `6e40`), so the children receive the
function-scoped `bestLMin … bestRMax` vectors that were never assigned in
this iteration — still their initial zero value. -/
theorem C3_build_sentinel_split_stale_child_boxes :
    Build c2bvh c3verts 2 4 = some c3built ∧
    (c3built.bvhNode 0).isLeaf = false ∧
    (c3built.bvhNode 0).leftFirst = 2 ∧
    (c3built.bvhNode 0).aabbMin = ⟨10 ^ 20, 10 ^ 20, 10 ^ 20⟩ ∧
    (c3built.bvhNode 0).aabbMax = ⟨4 * 10 ^ 20, 2 * 10 ^ 20, 10 ^ 20⟩ ∧
    (c3built.bvhNode 2).triCount = 1 ∧ (c3built.bvhNode 3).triCount = 1 ∧
    (c3built.bvhNode 2).aabbMin = ⟨0, 0, 0⟩ ∧
    (c3built.bvhNode 2).aabbMax = ⟨0, 0, 0⟩ ∧
    (c3built.bvhNode 3).aabbMin = ⟨0, 0, 0⟩ ∧
    (c3built.bvhNode 3).aabbMax = ⟨0, 0, 0⟩ :=
  ⟨rfl, by decide, by decide, by decide, by decide, by decide, by decide,
    by decide, by decide, by decide, by decide⟩

/-- The containment invariant `aabb(parent) ⊇ aabb(left child)` fails on
the `Build` output for the huge-coordinate mesh: the root is an interior
node with children at slots 2 and 3, and the left child's box is not
inside the root's box on the x axis. -/
theorem C3_cx_build_child_box_escapes_parent :
    (c3built.bvhNode 0).isLeaf = false ∧
    (c3built.bvhNode 0).leftFirst = 2 ∧
    ¬ ((c3built.bvhNode 0).aabbMin.x ≤ (c3built.bvhNode 2).aabbMin.x ∧
       (c3built.bvhNode 2).aabbMax.x ≤ (c3built.bvhNode 0).aabbMax.x) :=
  ⟨by decide, by decide, by decide⟩
